import Mathlib

/-!
Branch predictor library of `Lab2/brchPredict.cpp`.

A shallow embedding of the saturating counter, the shift register, the
table / global-history / local-history predictors, the local-selection
tournament predictor and the prediction loop.

Conventions of the embedding.

* `UINT64`, `ADDRINT` and `size_t` values are natural numbers; every place
  where the source can wrap writes the reduction modulo `2 ^ 64`.
* The literal `1` in `1 << N` is a 32-bit `int`.  Expressions over `int` have
  the values the GNU C++ compiler for x86-64 gives them when it folds the
  constant: `1 << 31` is `INT_MIN`, a shift by 32 or more is `0`, and signed
  overflow wraps.  `none` stands for an expression that has no value common to
  all builds.
* A template argument and an array bound are constant expressions: where the
  expression is not one, the type does not exist (`none`).
* Arrays are lists; `a[i]` outside the array is `none`.
* Member functions that write state return the new state.  Calls through a
  `BranchPredictor *` go through a record of the two virtual functions.
-/

namespace BrchPredict

/-! ## Machine integers -/

/-- Number of values of the 64-bit unsigned types `UINT64`, `ADDRINT`, `size_t`. -/
def U64 : Nat := 18446744073709551616

/-- Smallest value of the 32-bit type `int`. -/
def INT_MIN : Int := -2147483648

/-- Largest value of the 32-bit type `int`. -/
def INT_MAX : Int := 2147483647

/-- Result of one arithmetic step on `int`: the value when it is representable;
on signed overflow the compiler folds the constant to the value reduced to 32 bits
in two's complement (`(1 << 31) - 1` becomes `INT_MAX`). -/
def intResult (x : Int) : Int :=
  (x - INT_MIN) % 4294967296 + INT_MIN

/-- The expression `1 << n`, the left operand being the `int` literal `1` and `n` a
template constant of type `size_t`: `2 ^ n` for `n < 31`; `INT_MIN` for `n = 31`; `0` when
the count reaches the width of `int` (the compiler warns `left shift count >= width of
type` and folds the shift to `0`).  A count above `INT_MAX` is folded by optimised builds
and shifted by the machine, modulo 32, in others: no common value, `none`. -/
def shl1 (n : Nat) : Option Int :=
  if n < 31 then some (2 ^ n)
  else if n = 31 then some INT_MIN
  else if n ≤ 2147483647 then some 0
  else none

/-- Conversion of an `int` to a 64-bit unsigned type (modular). -/
def toU64 (x : Int) : Nat := (x % 18446744073709551616).toNat

/-- The `int` expression `(1 << bits) - 1`. -/
def lowMask (bits : Nat) : Option Int :=
  (shl1 bits).map fun x => intResult (x - 1)

/-- The `int` expression `(1 << N) / 2 - 1` (division truncates). -/
def midpoint (N : Nat) : Option Int :=
  (shl1 N).map fun x => intResult (Int.tdiv x 2 - 1)

/-- The macro `truncate(val, bits)`, `((val) & ((1 << (bits)) - 1))`, at a
64-bit unsigned `val`: the `int` mask is converted to the type of `val`. -/
def truncate (val bits : Nat) : Option Nat :=
  (lowMask bits).map fun m => val &&& toU64 m

/-- Modelled from the spec: `cut(val, bits)` is called by
`GlobalHistoryPredictor` and is declared nowhere in the source.  The spec
gives the index as `(addr XOR GHR.getValue()) & (2^L−1)`, so `cut` keeps the
low `bits` bits of `val`. -/
def cut (val bits : Nat) : Nat := val &&& (2 ^ bits - 1)

/-- The array bound `1 << L` of a member array: a constant expression of a positive
value.  For `L = 31` the bound is negative.  For `L ≥ 32` the shift is not a constant
expression and the array type is ill-formed; the GNU compiler lets the declaration through
with a warning, as an array of no elements, which is not a table: `none` as well. -/
def arraySize (L : Nat) : Option Nat :=
  (shl1 L).bind fun n => if 0 < n then some n.toNat else none

/-! ## SaturatingCnt -/

/-- State of `SaturatingCnt<N, init>`: the member `UINT64 val`. -/
structure SaturatingCnt where
  val : Nat
deriving DecidableEq, Repr

/-- The default template argument `init = (1 << N) / 2 - 1`, converted to
`UINT64`.  A template argument is a converted constant expression: a negative
`int` does not convert, and a shift by the width of `int` or more is not a constant
expression (its folded value gives `-1`), so such a width has no default. -/
def SaturatingCnt.defaultInit (N : Nat) : Option Nat :=
  (midpoint N).bind fun h => if 0 ≤ h then some h.toNat else none

/-- `void increase()`: `if (val < (1 << N) - 1) val++;`. -/
def SaturatingCnt.increase (N : Nat) (c : SaturatingCnt) : Option SaturatingCnt :=
  (lowMask N).map fun m =>
    if c.val < toU64 m then { val := (c.val + 1) % U64 } else c

/-- `void decrease()`: `if (val > 0) val--;`. -/
def SaturatingCnt.decrease (c : SaturatingCnt) : SaturatingCnt :=
  if c.val > 0 then { val := (c.val - 1) % U64 } else c

/-- `void reset()`: `val = init;`. -/
def SaturatingCnt.reset (init : Nat) (_c : SaturatingCnt) : SaturatingCnt :=
  { val := init }

/-- The constructor `SaturatingCnt() { reset(); }`; what `val` holds before
the call is overwritten. -/
def SaturatingCnt.ctor (init : Nat) : SaturatingCnt :=
  SaturatingCnt.reset init { val := 0 }

/-- `UINT64 getVal()`. -/
def SaturatingCnt.getVal (c : SaturatingCnt) : Nat := c.val

/-- `BOOL isTaken()`: `return (val > (1 << N) / 2 - 1);`, the `int` on the
right converted to `UINT64` for the comparison. -/
def SaturatingCnt.isTaken (N : Nat) (c : SaturatingCnt) : Option Bool :=
  (midpoint N).map fun h => decide (c.val > toU64 h)

/-- One call on a counter. -/
inductive CntCall where
  | increase
  | decrease
deriving DecidableEq, Repr

/-- A counter after one call. -/
def SaturatingCnt.call (N : Nat) (c : SaturatingCnt) : CntCall → Option SaturatingCnt
  | CntCall.increase => c.increase N
  | CntCall.decrease => some c.decrease

/-- A counter after a sequence of calls, first call first. -/
def SaturatingCnt.calls (N : Nat) (c : SaturatingCnt) : List CntCall → Option SaturatingCnt
  | [] => some c
  | k :: ks => (c.call N k).bind fun c1 => SaturatingCnt.calls N c1 ks

/-! ## ShiftReg -/

/-- State of `ShiftReg<N>`: the member `UINT64 val`. -/
structure ShiftReg where
  val : Nat
deriving DecidableEq, Repr

/-- The constructor `ShiftReg() { val = 0; }`. -/
def ShiftReg.ctor : ShiftReg := { val := 0 }

/-- `bool shiftIn(bool b)`: returns `ret` and the register after the three
assignments.  `N - 1` is computed in `size_t`. -/
def ShiftReg.shiftIn (N : Nat) (r : ShiftReg) (b : Bool) : Option (Bool × ShiftReg) :=
  (shl1 ((N + U64 - 1) % U64)).bind fun top =>
    let ret := (r.val &&& toU64 top) != 0
    let v1 := (r.val <<< 1) % U64
    let v2 := v1 ||| b.toNat
    (lowMask N).map fun m => (ret, { val := v2 &&& toU64 m })

/-- `UINT64 getVal()`. -/
def ShiftReg.getVal (r : ShiftReg) : Nat := r.val

/-! ## The predictor interface -/

/-- The two virtual member functions of `BranchPredictor`, for a predictor
class whose objects have state `P`.  A call through a `BranchPredictor *`
is a call of the matching field.  Both functions may write the object, so
both return its state after the call. -/
structure Virtual (P : Type) where
  predict : P → Nat → Option (Bool × P)
  update : P → Bool → Bool → Nat → Option P

/-- State of the base class `BranchPredictor`: it has no members. -/
structure BranchPredictor where
deriving DecidableEq, Repr

/-- `virtual BOOL predict(ADDRINT addr) { return FALSE; }`. -/
def BranchPredictor.predict (p : BranchPredictor) (_addr : Nat) :
    Option (Bool × BranchPredictor) :=
  some (false, p)

/-- `virtual void update(BOOL, BOOL, ADDRINT) {}`. -/
def BranchPredictor.update (p : BranchPredictor) (_takenActually _takenPredicted : Bool)
    (_addr : Nat) : Option BranchPredictor :=
  some p

/-- Virtual functions of an object of the base class. -/
def BranchPredictor.virt : Virtual BranchPredictor :=
  { predict := BranchPredictor.predict, update := BranchPredictor.update }

/-! ## BHTPredictor -/

/-- State of `BHTPredictor<L>`: the array `SaturatingCnt<2> counter[1 << L]`. -/
structure BHTPredictor where
  counter : List SaturatingCnt
deriving DecidableEq, Repr

/-- The constructor `BHTPredictor() {}`: every counter is default-constructed. -/
def BHTPredictor.ctor (L : Nat) : Option BHTPredictor :=
  (arraySize L).bind fun n =>
    (SaturatingCnt.defaultInit 2).map fun i =>
      { counter := List.replicate n (SaturatingCnt.ctor i) }

/-- `BOOL predict(ADDRINT addr)`: `return counter[truncate(addr, L)].isTaken();`. -/
def BHTPredictor.predict (L : Nat) (p : BHTPredictor) (addr : Nat) :
    Option (Bool × BHTPredictor) :=
  (truncate addr L).bind fun idx =>
    (p.counter[idx]?).bind fun c =>
      (c.isTaken 2).map fun b => (b, p)

/-- `void update(BOOL takenActually, BOOL takenPredicted, ADDRINT addr)`. -/
def BHTPredictor.update (L : Nat) (p : BHTPredictor) (takenActually _takenPredicted : Bool)
    (addr : Nat) : Option BHTPredictor :=
  (truncate addr L).bind fun idx =>
    (p.counter[idx]?).bind fun c =>
      (if takenActually then c.increase 2 else some c.decrease).map fun c1 =>
        { counter := p.counter.set idx c1 }

/-- Virtual functions of a `BHTPredictor<L>`. -/
def BHTPredictor.virt (L : Nat) : Virtual BHTPredictor :=
  { predict := BHTPredictor.predict L, update := BHTPredictor.update L }

/-! ## GlobalHistoryPredictor -/

/-- State of `GlobalHistoryPredictor<L, H, BITS>`: the array
`SaturatingCnt<BITS> bhist[1 << L]` and the register `ShiftReg<H> GHR`. -/
structure GlobalHistoryPredictor where
  bhist : List SaturatingCnt
  GHR : ShiftReg
deriving DecidableEq, Repr

/-- The constructor `GlobalHistoryPredictor() {}`. -/
def GlobalHistoryPredictor.ctor (L BITS : Nat) : Option GlobalHistoryPredictor :=
  (arraySize L).bind fun n =>
    (SaturatingCnt.defaultInit BITS).map fun i =>
      { bhist := List.replicate n (SaturatingCnt.ctor i), GHR := ShiftReg.ctor }

/-- `BOOL predict(ADDRINT addr)`: `tag = cut(addr ^ GHR.getVal(), L)`, then
`return bhist[tag].isTaken();`. -/
def GlobalHistoryPredictor.predict (L BITS : Nat) (p : GlobalHistoryPredictor) (addr : Nat) :
    Option (Bool × GlobalHistoryPredictor) :=
  let tag := cut (addr ^^^ p.GHR.getVal) L
  (p.bhist[tag]?).bind fun c =>
    (c.isTaken BITS).map fun b => (b, p)

/-- `void update(BOOL takenActually, BOOL takenPredicted, ADDRINT addr)`: the
counter at `tag` is stepped, then `GHR.shiftIn(takenActually)`. -/
def GlobalHistoryPredictor.update (L H BITS : Nat) (p : GlobalHistoryPredictor)
    (takenActually _takenPredicted : Bool) (addr : Nat) : Option GlobalHistoryPredictor :=
  let tag := cut (addr ^^^ p.GHR.getVal) L
  (p.bhist[tag]?).bind fun c =>
    (if takenActually then c.increase BITS else some c.decrease).bind fun c1 =>
      (p.GHR.shiftIn H takenActually).map fun out =>
        { bhist := p.bhist.set tag c1, GHR := out.2 }

/-- Virtual functions of a `GlobalHistoryPredictor<L, H, BITS>`. -/
def GlobalHistoryPredictor.virt (L H BITS : Nat) : Virtual GlobalHistoryPredictor :=
  { predict := GlobalHistoryPredictor.predict L BITS,
    update := GlobalHistoryPredictor.update L H BITS }

/-! ## LocalHistoryPredictor -/

/-- State of `LocalHistoryPredictor<L, H, HL, BITS>`: the arrays
`SaturatingCnt<BITS> bhist[1 << L]` and `ShiftReg<H> LHT[1 << HL]`. -/
structure LocalHistoryPredictor where
  bhist : List SaturatingCnt
  LHT : List ShiftReg
deriving DecidableEq, Repr

/-- The constructor `LocalHistoryPredictor() {}`. -/
def LocalHistoryPredictor.ctor (L HL BITS : Nat) : Option LocalHistoryPredictor :=
  (arraySize L).bind fun n =>
    (SaturatingCnt.defaultInit BITS).bind fun i =>
      (arraySize HL).map fun m =>
        { bhist := List.replicate n (SaturatingCnt.ctor i),
          LHT := List.replicate m ShiftReg.ctor }

/-- `BOOL predict(ADDRINT addr)`: `LH = LHT[truncate(addr, HL)].getVal()`,
`Tag = truncate(addr ^ LH, L)`, then `return bhist[Tag].isTaken();`. -/
def LocalHistoryPredictor.predict (L HL BITS : Nat) (p : LocalHistoryPredictor) (addr : Nat) :
    Option (Bool × LocalHistoryPredictor) :=
  (truncate addr HL).bind fun i =>
    (p.LHT[i]?).bind fun r =>
      let LH := r.getVal
      (truncate (addr ^^^ LH) L).bind fun Tag =>
        (p.bhist[Tag]?).bind fun c =>
          (c.isTaken BITS).map fun b => (b, p)

/-- `void update(BOOL takenActually, BOOL takenPredicted, ADDRINT addr)`: both
indices are computed first, then `LHT[LHTTag].shiftIn(takenActually)`, then
the counter at `Tag` is stepped. -/
def LocalHistoryPredictor.update (L H HL BITS : Nat) (p : LocalHistoryPredictor)
    (takenActually _takenPredicted : Bool) (addr : Nat) : Option LocalHistoryPredictor :=
  (truncate addr HL).bind fun LHTTag =>
    (p.LHT[LHTTag]?).bind fun r =>
      (truncate (addr ^^^ r.getVal) L).bind fun Tag =>
        (r.shiftIn H takenActually).bind fun out =>
          (p.bhist[Tag]?).bind fun c =>
            (if takenActually then c.increase BITS else some c.decrease).map fun c1 =>
              { bhist := p.bhist.set Tag c1, LHT := p.LHT.set LHTTag out.2 }

/-- Virtual functions of a `LocalHistoryPredictor<L, H, HL, BITS>`. -/
def LocalHistoryPredictor.virt (L H HL BITS : Nat) : Virtual LocalHistoryPredictor :=
  { predict := LocalHistoryPredictor.predict L HL BITS,
    update := LocalHistoryPredictor.update L H HL BITS }

/-! ## TournamentPredictor_LSH -/

/-- State of `TournamentPredictor_LSH<L, BITS>`: the declared array
`SaturatingCnt<BITS> LSHT[1 << L]`, the objects `BPs[0]` and `BPs[1]` point to
(two distinct objects, of classes with states `P0` and `P1`), and the counter
`GSHR` that `predict` and `update` name.  The class does not declare `GSHR`;
its declaration, `SaturatingCnt<BITS> GSHR;`, is the one of
`TournamentPredictor_GSH`. -/
structure TournamentPredictor_LSH (P0 P1 : Type) where
  LSHT : List SaturatingCnt
  GSHR : SaturatingCnt
  BP0 : P0
  BP1 : P1
deriving DecidableEq, Repr

/-- The constructor `TournamentPredictor_LSH(BranchPredictor *BP0,
BranchPredictor *BP1)`: the counters are default-constructed. -/
def TournamentPredictor_LSH.ctor {P0 P1 : Type} (L BITS : Nat) (BP0 : P0) (BP1 : P1) :
    Option (TournamentPredictor_LSH P0 P1) :=
  (arraySize L).bind fun n =>
    (SaturatingCnt.defaultInit BITS).map fun i =>
      { LSHT := List.replicate n (SaturatingCnt.ctor i), GSHR := SaturatingCnt.ctor i,
        BP0 := BP0, BP1 := BP1 }

/-- `BOOL predict(ADDRINT addr)`: `if (!GSHR.isTaken()) return
BPs[0]->predict(addr); else return BPs[1]->predict(addr);`. -/
def TournamentPredictor_LSH.predict {P0 P1 : Type} (BITS : Nat) (v0 : Virtual P0)
    (v1 : Virtual P1) (t : TournamentPredictor_LSH P0 P1) (addr : Nat) :
    Option (Bool × TournamentPredictor_LSH P0 P1) :=
  (t.GSHR.isTaken BITS).bind fun sel =>
    if !sel then
      (v0.predict t.BP0 addr).map fun out => (out.1, { t with BP0 := out.2 })
    else
      (v1.predict t.BP1 addr).map fun out => (out.1, { t with BP1 := out.2 })

/-- `void update(BOOL takenActually, BOOL takenPredicted, ADDRINT addr)`: both
sub-predictors are asked, both are updated, then `GSHR` is stepped. -/
def TournamentPredictor_LSH.update {P0 P1 : Type} (BITS : Nat) (v0 : Virtual P0)
    (v1 : Virtual P1) (t : TournamentPredictor_LSH P0 P1)
    (takenActually _takenPredicted : Bool) (addr : Nat) :
    Option (TournamentPredictor_LSH P0 P1) :=
  (v0.predict t.BP0 addr).bind fun out0 =>
    (v1.predict t.BP1 addr).bind fun out1 =>
      (v0.update out0.2 takenActually out0.1 addr).bind fun b0 =>
        (v1.update out1.2 takenActually out1.1 addr).bind fun b1 =>
          (if out0.1 == takenActually && out1.1 != takenActually then
              some t.GSHR.decrease
            else if out0.1 != takenActually && out1.1 == takenActually then
              t.GSHR.increase BITS
            else
              some t.GSHR).map fun g =>
            { LSHT := t.LSHT, GSHR := g, BP0 := b0, BP1 := b1 }

/-- Virtual functions of a `TournamentPredictor_LSH<L, BITS>` over two
sub-predictors. -/
def TournamentPredictor_LSH.virt {P0 P1 : Type} (BITS : Nat) (v0 : Virtual P0)
    (v1 : Virtual P1) : Virtual (TournamentPredictor_LSH P0 P1) :=
  { predict := TournamentPredictor_LSH.predict BITS v0 v1,
    update := TournamentPredictor_LSH.update BITS v0 v1 }

/-! ## The prediction loop -/

/-- The four static `UINT64` accumulators. -/
structure Accumulator where
  takenCorrect : Nat
  takenIncorrect : Nat
  notTakenCorrect : Nat
  notTakenIncorrect : Nat
deriving DecidableEq, Repr

/-- The accumulators at program start: all four are `0`. -/
def Accumulator.zero : Accumulator :=
  { takenCorrect := 0, takenIncorrect := 0, notTakenCorrect := 0, notTakenIncorrect := 0 }

/-- `void predictBranch(ADDRINT pc, BOOL direction)`, on the object `BP`
points to and the accumulators; `++` on a `UINT64` wraps. -/
def predictBranch {P : Type} (v : Virtual P) (BP : P) (acc : Accumulator) (pc : Nat)
    (direction : Bool) : Option (P × Accumulator) :=
  (v.predict BP pc).bind fun out =>
    let prediction := out.1
    (v.update out.2 direction prediction pc).map fun bp =>
      (bp,
        if prediction then
          if direction then { acc with takenCorrect := (acc.takenCorrect + 1) % U64 }
          else { acc with takenIncorrect := (acc.takenIncorrect + 1) % U64 }
        else
          if direction then { acc with notTakenIncorrect := (acc.notTakenIncorrect + 1) % U64 }
          else { acc with notTakenCorrect := (acc.notTakenCorrect + 1) % U64 })

/-- The prediction loop: the instrumentation host calls `predictBranch` once
per event `(pc, direction)`, in program order. -/
def predictBranches {P : Type} (v : Virtual P) (BP : P) (acc : Accumulator) :
    List (Nat × Bool) → Option (P × Accumulator)
  | [] => some (BP, acc)
  | e :: rest =>
    (predictBranch v BP acc e.1 e.2).bind fun s => predictBranches v s.1 s.2 rest

/-- Sum of the four accumulators, as a number (not reduced modulo `2 ^ 64`). -/
def Accumulator.total (acc : Accumulator) : Nat :=
  acc.takenCorrect + acc.takenIncorrect + acc.notTakenCorrect + acc.notTakenIncorrect

/-- Outcomes that alternate strictly; `first` is the first of the `n` outcomes. -/
def alternating (first : Bool) : Nat → List Bool
  | 0 => []
  | n + 1 => first :: alternating (!first) n

/-- Events at the one address `addr` with the given outcomes, in order. -/
def eventsAt (addr : Nat) (outcomes : List Bool) : List (Nat × Bool) :=
  outcomes.map fun b => (addr, b)

/-- A register after `shiftIn` has been called with each bit of a list, first bit
first. -/
def ShiftReg.shiftIns (N : Nat) (r : ShiftReg) : List Bool → Option ShiftReg
  | [] => some r
  | b :: bs => (r.shiftIn N b).bind fun out => ShiftReg.shiftIns N out.2 bs

/-- The number `Σ b_j · 2 ^ (k − j)` that the bits `b_1 .. b_k` spell, last bit
lowest. -/
def bitsValue : List Bool → Nat
  | [] => 0
  | b :: bs => b.toNat * 2 ^ bs.length + bitsValue bs

/-- A value of type `double`, as far as `Fini` computes one: a finite non-negative
number, `+inf` or NaN.  Rounding is not modelled: `finite q` stands for the `double`
that the operation rounds the exact result `q` to. -/
inductive Double where
  | finite (q : ℚ)
  | inf
  | nan
deriving DecidableEq

/-- Conversion of a `UINT64`, or of the `int` literal `100`, to `double`. -/
def Double.ofCount (n : Nat) : Double := Double.finite n

/-- The product `x * y` of non-negative doubles. -/
def Double.mul : Double → Double → Double
  | Double.finite a, Double.finite b => Double.finite (a * b)
  | Double.finite a, Double.inf => if a = 0 then Double.nan else Double.inf
  | Double.inf, Double.finite b => if b = 0 then Double.nan else Double.inf
  | Double.inf, Double.inf => Double.inf
  | Double.nan, _ => Double.nan
  | _, Double.nan => Double.nan

/-- The quotient `x / y` of non-negative doubles: `0 / 0` is NaN and `x / 0` is `+inf`
for `x > 0`; the division raises nothing. -/
def Double.div : Double → Double → Double
  | Double.finite a, Double.finite b =>
    if b = 0 then (if a = 0 then Double.nan else Double.inf) else Double.finite (a / b)
  | Double.finite _, Double.inf => Double.finite 0
  | Double.inf, Double.finite _ => Double.inf
  | Double.inf, Double.inf => Double.nan
  | Double.nan, _ => Double.nan
  | _, Double.nan => Double.nan

/-- The value `precision` that `Fini` computes and prints:
`100 * double(takenCorrect + notTakenCorrect) /
(takenCorrect + notTakenCorrect + takenIncorrect + notTakenIncorrect)`, the sums being
`UINT64` sums. -/
def Fini (acc : Accumulator) : Double :=
  Double.div
    (Double.mul (Double.ofCount 100)
      (Double.ofCount ((acc.takenCorrect + acc.notTakenCorrect) % U64)))
    (Double.ofCount
      ((((acc.takenCorrect + acc.notTakenCorrect) % U64 + acc.takenIncorrect) % U64
        + acc.notTakenIncorrect) % U64))

/-! ## Evaluation of the `int` expressions -/

/-- The 64-bit modulus as a power of two. -/
theorem U64_eq : U64 = 2 ^ 64 := by decide

/-- Powers of two up to `2 ^ 30`. -/
theorem two_pow_le_of_le {N : Nat} (h : N ≤ 30) : 2 ^ N ≤ 1073741824 := by
  have := Nat.pow_le_pow_right (by norm_num : 0 < 2) h
  norm_num at this
  exact this

/-- For `N ≤ 30` the shift `1 << N` is `2 ^ N`. -/
theorem shl1_of_le {N : Nat} (h : N ≤ 30) : shl1 N = some ((2 ^ N : Nat) : Int) := by
  unfold shl1
  rw [if_pos (by omega)]
  push_cast
  rfl

/-- From `N = 32` on (up to `INT_MAX`) the shift `1 << N` is folded to `0`. -/
theorem shl1_of_ge {N : Nat} (h : 32 ≤ N) (h2 : N ≤ 2147483647) : shl1 N = some 0 := by
  unfold shl1
  rw [if_neg (by omega), if_neg (by omega), if_pos h2]

/-- The shift `1 << N` is positive only for `N ≤ 30`. -/
theorem shl1_pos {N : Nat} {x : Int} (h : shl1 N = some x) (hx : 0 < x) : N ≤ 30 := by
  unfold shl1 at h
  split at h
  · omega
  · split at h
    · cases Option.some.inj h
      exact absurd hx (by decide)
    · split at h
      · cases Option.some.inj h
        exact absurd hx (by decide)
      · exact Option.noConfusion h

/-- From `N = 32` on the mask `(1 << N) - 1` is `-1`: every bit of a `UINT64` is kept. -/
theorem lowMask_of_ge {N : Nat} (h : 32 ≤ N) (h2 : N ≤ 2147483647) : lowMask N = some (-1) := by
  unfold lowMask
  rw [shl1_of_ge h h2]
  rfl

/-- For `N ≤ 30` the mask `(1 << N) - 1` is `2 ^ N - 1`. -/
theorem lowMask_of_le {N : Nat} (h : N ≤ 30) : lowMask N = some ((2 ^ N - 1 : Nat) : Int) := by
  have hp := two_pow_le_of_le h
  have h1 : 1 ≤ 2 ^ N := Nat.one_le_two_pow
  unfold lowMask
  rw [shl1_of_le h]
  simp only [Option.map_some', intResult, INT_MIN]
  congr 1
  omega

/-- A non-negative `int` below `2 ^ 64` converts to itself. -/
theorem toU64_natCast {n : Nat} (h : n < U64) : toU64 (n : Int) = n := by
  unfold toU64
  unfold U64 at h
  omega

/-- For `1 ≤ N ≤ 30` the expression `(1 << N) / 2 - 1` is `2 ^ N / 2 - 1`. -/
theorem midpoint_of_le {N : Nat} (h1 : 1 ≤ N) (h : N ≤ 30) :
    midpoint N = some ((2 ^ N / 2 - 1 : Nat) : Int) := by
  have hp := two_pow_le_of_le h
  have h2 : 2 ≤ 2 ^ N := by
    have := Nat.pow_le_pow_right (by norm_num : 0 < 2) h1
    simpa using this
  unfold midpoint
  rw [shl1_of_le h]
  generalize 2 ^ N = x at hp h2
  simp only [Option.map_some', intResult, INT_MIN]
  have e : Int.tdiv (x : Int) 2 = ((x / 2 : Nat) : Int) := by
    rw [Int.tdiv_eq_ediv (by positivity) (by norm_num)]
    norm_cast
  rw [e]
  congr 1
  omega

/-- For `L ≤ 30`, `truncate(val, L)` is `val mod 2 ^ L`. -/
theorem truncate_of_le {L : Nat} (h : L ≤ 30) (val : Nat) :
    truncate val L = some (val % 2 ^ L) := by
  have hp := two_pow_le_of_le h
  unfold truncate
  rw [lowMask_of_le h, Option.map_some', toU64_natCast (by unfold U64; omega),
    Nat.and_pow_two_sub_one_eq_mod]

/-- For `N ≤ 30`, `increase()` adds one below `2 ^ N - 1` and is a no-op otherwise. -/
theorem SaturatingCnt.increase_of_le {N : Nat} (h : N ≤ 30) (c : SaturatingCnt) :
    c.increase N = some (if c.val < 2 ^ N - 1 then { val := c.val + 1 } else c) := by
  have hp := two_pow_le_of_le h
  unfold SaturatingCnt.increase
  rw [lowMask_of_le h, Option.map_some', toU64_natCast (by unfold U64; omega)]
  by_cases hc : c.val < 2 ^ N - 1
  · rw [if_pos hc, if_pos hc, Nat.mod_eq_of_lt (by unfold U64; omega)]
  · rw [if_neg hc, if_neg hc]

/-- On a 64-bit value `decrease()` subtracts one above `0` and is a no-op at `0`. -/
theorem SaturatingCnt.decrease_of_lt (c : SaturatingCnt) (h : c.val < U64) :
    c.decrease = if c.val > 0 then { val := c.val - 1 } else c := by
  unfold SaturatingCnt.decrease
  by_cases hc : c.val > 0
  · rw [if_pos hc, if_pos hc, Nat.mod_eq_of_lt (by omega)]
  · rw [if_neg hc, if_neg hc]

/-- For `1 ≤ N ≤ 30`, `isTaken()` holds exactly above `2 ^ N / 2 - 1`. -/
theorem SaturatingCnt.isTaken_of_le {N : Nat} (h1 : 1 ≤ N) (h : N ≤ 30) (c : SaturatingCnt) :
    c.isTaken N = some (decide (c.val > 2 ^ N / 2 - 1)) := by
  have hp := two_pow_le_of_le h
  unfold SaturatingCnt.isTaken
  rw [midpoint_of_le h1 h, Option.map_some', toU64_natCast (by unfold U64; omega)]

/-- For `1 ≤ N ≤ 30` the default initial value is `2 ^ N / 2 - 1`. -/
theorem SaturatingCnt.defaultInit_of_le {N : Nat} (h1 : 1 ≤ N) (h : N ≤ 30) :
    SaturatingCnt.defaultInit N = some (2 ^ N / 2 - 1) := by
  unfold SaturatingCnt.defaultInit
  rw [midpoint_of_le h1 h]
  simp

/-- A default initial value exists exactly for the widths 1 to 30. -/
theorem SaturatingCnt.defaultInit_isSome_iff (N : Nat) :
    (SaturatingCnt.defaultInit N).isSome = true ↔ 1 ≤ N ∧ N ≤ 30 := by
  constructor
  · intro h
    by_contra hn
    have hN : N = 0 ∨ 31 ≤ N := by omega
    rcases hN with rfl | hN
    · revert h; decide
    · unfold SaturatingCnt.defaultInit midpoint at h
      cases hs : shl1 N with
      | none => simp [hs] at h
      | some x =>
        have hx : x = INT_MIN ∨ x = 0 := by
          unfold shl1 at hs
          rw [if_neg (by omega)] at hs
          split at hs
          · exact Or.inl (Option.some.inj hs).symm
          · split at hs
            · exact Or.inr (Option.some.inj hs).symm
            · exact Option.noConfusion hs
        rcases hx with rfl | rfl
        · rw [hs] at h
          revert h
          decide
        · rw [hs] at h
          revert h
          decide
  · rintro ⟨h1, h30⟩
    rw [SaturatingCnt.defaultInit_of_le h1 h30]
    rfl

/-- For `N ≤ 30` the counter clamps: it stays in `[0, 2 ^ N - 1]`. -/
theorem SaturatingCnt.calls_inRange {N : Nat} (h : N ≤ 30) (ks : List CntCall) :
    ∀ c : SaturatingCnt, c.val ≤ 2 ^ N - 1 →
      ∃ c1, SaturatingCnt.calls N c ks = some c1 ∧ c1.val ≤ 2 ^ N - 1 := by
  have hp := two_pow_le_of_le h
  induction ks with
  | nil => intro c hc; exact ⟨c, rfl, hc⟩
  | cons k ks ih =>
    intro c hc
    cases k with
    | increase =>
      simp only [SaturatingCnt.calls, SaturatingCnt.call, SaturatingCnt.increase_of_le h,
        Option.some_bind]
      apply ih
      split
      · show c.val + 1 ≤ 2 ^ N - 1
        omega
      · exact hc
    | decrease =>
      simp only [SaturatingCnt.calls, SaturatingCnt.call, Option.some_bind]
      apply ih
      rw [SaturatingCnt.decrease_of_lt c (by unfold U64; omega)]
      split
      · show c.val - 1 ≤ 2 ^ N - 1
        omega
      · exact hc

/-- The 64-bit wrap of `val <<= 1` is invisible below bit `N ≤ 64`. -/
theorem shiftIn_value (N : Nat) (hN : N ≤ 64) (v : Nat) (b : Bool) :
    (((v <<< 1) % U64) ||| b.toNat) % 2 ^ N = ((v <<< 1) ||| b.toNat) % 2 ^ N := by
  apply Nat.eq_of_testBit_eq
  intro i
  simp only [U64_eq, Nat.testBit_mod_two_pow, Nat.testBit_or]
  by_cases hi : i < N
  · have : i < 64 := by omega
    simp [hi, this]
  · simp [hi]

/-- Testing a bit with `!!(v & 2 ^ i)`. -/
theorem and_two_pow_ne_zero (v i : Nat) : ((v &&& 2 ^ i) != 0) = v.testBit i := by
  rw [Nat.and_two_pow]
  have hp : 0 < 2 ^ i := Nat.two_pow_pos i
  cases h : v.testBit i
  · simp
  · simp

/-- For `1 ≤ N ≤ 30`, `shiftIn(b)` returns bit `N - 1` and leaves `((v << 1) | b) mod 2 ^ N`. -/
theorem ShiftReg.shiftIn_of_le {N : Nat} (h1 : 1 ≤ N) (h30 : N ≤ 30) (r : ShiftReg) (b : Bool) :
    r.shiftIn N b =
      some (r.val.testBit (N - 1), { val := ((r.val <<< 1) ||| b.toNat) % 2 ^ N }) := by
  have hp := two_pow_le_of_le h30
  have hp1 := two_pow_le_of_le (show N - 1 ≤ 30 by omega)
  have e : (N + U64 - 1) % U64 = N - 1 := by unfold U64; omega
  unfold ShiftReg.shiftIn
  rw [e, shl1_of_le (by omega), lowMask_of_le h30]
  simp only [Option.some_bind, Option.map_some']
  rw [toU64_natCast (by unfold U64; omega), toU64_natCast (by unfold U64; omega),
    Nat.and_pow_two_sub_one_eq_mod, shiftIn_value N (by omega), and_two_pow_ne_zero]

/-- For `N ≤ 30`, `isTaken()` returns. -/
theorem SaturatingCnt.isTaken_isSome {N : Nat} (h : N ≤ 30) (c : SaturatingCnt) :
    ∃ b, c.isTaken N = some b := by
  have hp := two_pow_le_of_le h
  unfold SaturatingCnt.isTaken midpoint
  rw [shl1_of_le h]
  exact ⟨_, rfl⟩

/-- For `N ≤ 30` the step of an update, `increase()` or `decrease()`, returns. -/
theorem SaturatingCnt.step_isSome {N : Nat} (h : N ≤ 30) (c : SaturatingCnt) (a : Bool) :
    ∃ c1, (if a then c.increase N else some c.decrease) = some c1 := by
  cases a
  · exact ⟨_, rfl⟩
  · exact ⟨_, SaturatingCnt.increase_of_le h c⟩

/-! ## Widths from 32 on -/

/-- The mask `-1`, converted to `UINT64`, is `2 ^ 64 - 1`. -/
theorem toU64_neg_one : toU64 (-1) = 2 ^ 64 - 1 := by decide

/-- From `N = 32` on the bound of `increase()` is `2 ^ 64 - 1`: the counter counts past
`2 ^ N - 1`. -/
theorem SaturatingCnt.increase_of_ge {N : Nat} (h : 32 ≤ N) (h2 : N ≤ 2147483647)
    (c : SaturatingCnt) (hc : c.val < 2 ^ 64 - 1) :
    c.increase N = some { val := c.val + 1 } := by
  unfold SaturatingCnt.increase
  rw [lowMask_of_ge h h2, Option.map_some', toU64_neg_one, if_pos hc,
    Nat.mod_eq_of_lt (by unfold U64; omega)]

/-- From `N = 32` on, `k` calls of `increase()` add `k` as long as 64 bits hold the sum. -/
theorem SaturatingCnt.calls_increase_of_ge {N : Nat} (h : 32 ≤ N) (h2 : N ≤ 2147483647)
    (k : Nat) : ∀ c : SaturatingCnt, c.val + k ≤ 2 ^ 64 - 1 →
      SaturatingCnt.calls N c (List.replicate k CntCall.increase) = some { val := c.val + k } := by
  induction k with
  | zero => intro c _; rfl
  | succ k ih =>
    intro c hc
    simp only [List.replicate_succ, SaturatingCnt.calls, SaturatingCnt.call]
    rw [SaturatingCnt.increase_of_ge h h2 c (by omega), Option.some_bind,
      ih _ (by show c.val + 1 + k ≤ _; omega)]
    congr 2
    show c.val + 1 + k = c.val + (k + 1)
    omega

/-- An index masked to `L` bits lies in a table of `2 ^ L` entries. -/
theorem getElem?_mask {α : Type} (t : List α) (L : Nat) (h : t.length = 2 ^ L) (x : Nat) :
    ∃ c, t[x &&& (2 ^ L - 1)]? = some c := by
  have hlt : x &&& (2 ^ L - 1) < t.length := by
    rw [Nat.and_pow_two_sub_one_eq_mod, h]
    exact Nat.mod_lt _ (Nat.two_pow_pos L)
  exact ⟨t[x &&& (2 ^ L - 1)], List.getElem?_eq_getElem hlt⟩

/-- For `L ≤ 30`, `truncate(val, L)` is `val & (2 ^ L - 1)`. -/
theorem truncate_eq_mask {L : Nat} (h : L ≤ 30) (val : Nat) :
    truncate val L = some (val &&& (2 ^ L - 1)) := by
  rw [truncate_of_le h, Nat.and_pow_two_sub_one_eq_mod]

/-- An array bound `1 << L` exists only for `L ≤ 30`, and is `2 ^ L`. -/
theorem arraySize_eq_some {L n : Nat} (h : arraySize L = some n) : L ≤ 30 ∧ n = 2 ^ L := by
  by_cases hL : L ≤ 30
  · refine ⟨hL, ?_⟩
    unfold arraySize at h
    rw [shl1_of_le hL] at h
    have hp : 0 < 2 ^ L := Nat.two_pow_pos L
    simp only [Option.some_bind] at h
    rw [if_pos (by exact_mod_cast hp), Int.toNat_natCast] at h
    exact (Option.some.inj h).symm
  · exfalso
    unfold arraySize at h
    cases hs : shl1 L with
    | none => simp [hs] at h
    | some x =>
      rw [hs, Option.some_bind] at h
      by_cases hx : 0 < x
      · exact hL (shl1_pos hs hx)
      · rw [if_neg hx] at h
        exact Option.noConfusion h

/-- A constructed `BHTPredictor<L>` has `L ≤ 30` and `2 ^ L` counters. -/
theorem BHTPredictor.bht_ctor_eq_some {L : Nat} {p : BHTPredictor}
    (h : BHTPredictor.ctor L = some p) :
    L ≤ 30 ∧ p.counter.length = 2 ^ L := by
  unfold BHTPredictor.ctor at h
  cases hn : arraySize L with
  | none => simp [hn] at h
  | some n =>
    obtain ⟨hL, rfl⟩ := arraySize_eq_some hn
    refine ⟨hL, ?_⟩
    rw [hn, SaturatingCnt.defaultInit_of_le (by decide : 1 ≤ 2) (by decide : 2 ≤ 30)] at h
    simp only [Option.some_bind, Option.map_some', Option.some.injEq] at h
    rw [← h]
    exact List.length_replicate _ _

/-- A width with a default initial value lies between 1 and 30. -/
theorem SaturatingCnt.defaultInit_eq_some {N i : Nat} (h : SaturatingCnt.defaultInit N = some i) :
    1 ≤ N ∧ N ≤ 30 :=
  (SaturatingCnt.defaultInit_isSome_iff N).1 (by rw [h]; rfl)

/-! ## Predictors at the widths up to 30 -/

/-- For history widths `1 ≤ H ≤ 30` and counter widths `BITS ≤ 30`: `predict` reads the
counter at `(addr ^ g) & (2 ^ L - 1)` and leaves the state; `update` steps that counter
only and leaves `((g << 1) | actual) mod 2 ^ H` in `GHR`. -/
theorem GlobalHistoryPredictor.ghp_predict_update_of_le (L H BITS : Nat) (hH1 : 1 ≤ H)
    (hH : H ≤ 30) (hB : BITS ≤ 30) (p : GlobalHistoryPredictor) (hlen : p.bhist.length = 2 ^ L)
    (addr : Nat) (actual predicted : Bool) :
    ∃ c b c1 p1,
      p.bhist[(addr ^^^ p.GHR.getVal) &&& (2 ^ L - 1)]? = some c ∧
      c.isTaken BITS = some b ∧
      GlobalHistoryPredictor.predict L BITS p addr = some (b, p) ∧
      (if actual then c.increase BITS else some c.decrease) = some c1 ∧
      GlobalHistoryPredictor.update L H BITS p actual predicted addr = some p1 ∧
      p1.bhist[(addr ^^^ p.GHR.getVal) &&& (2 ^ L - 1)]? = some c1 ∧
      (∀ j, j ≠ (addr ^^^ p.GHR.getVal) &&& (2 ^ L - 1) → p1.bhist[j]? = p.bhist[j]?) ∧
      p1.bhist.length = p.bhist.length ∧
      p1.GHR.getVal = ((p.GHR.getVal <<< 1) ||| actual.toNat) % 2 ^ H := by
  obtain ⟨c, hc⟩ := getElem?_mask p.bhist L hlen (addr ^^^ p.GHR.getVal)
  obtain ⟨b, hb⟩ := SaturatingCnt.isTaken_isSome hB c
  obtain ⟨c1, hc1⟩ := SaturatingCnt.step_isSome hB c actual
  have hi : (addr ^^^ p.GHR.getVal) &&& (2 ^ L - 1) < p.bhist.length := by
    rw [Nat.and_pow_two_sub_one_eq_mod, hlen]
    exact Nat.mod_lt _ (Nat.two_pow_pos L)
  refine ⟨c, b, c1,
    { bhist := p.bhist.set ((addr ^^^ p.GHR.getVal) &&& (2 ^ L - 1)) c1,
      GHR := { val := ((p.GHR.val <<< 1) ||| actual.toNat) % 2 ^ H } },
    hc, hb, ?_, hc1, ?_, ?_, ?_, ?_, rfl⟩
  · simp only [GlobalHistoryPredictor.predict, cut, hc, hb, Option.some_bind, Option.map_some']
  · simp only [GlobalHistoryPredictor.update, cut, hc, hc1, Option.some_bind,
      ShiftReg.shiftIn_of_le hH1 hH, Option.map_some']
  · exact List.getElem?_set_self hi
  · intro j hj
    exact List.getElem?_set_ne (Ne.symm hj)
  · exact List.length_set _ _ _

/-- For widths `L, HL, BITS ≤ 30` and `1 ≤ H ≤ 30`: with `r` the history register of the
address, `predict` reads the counter at `(addr ^ r) & (2 ^ L - 1)` and leaves the state;
`update` steps that counter only and leaves `((r << 1) | actual) mod 2 ^ H` in that
register only. -/
theorem LocalHistoryPredictor.lhp_predict_update_of_le (L H HL BITS : Nat) (hL : L ≤ 30)
    (hH1 : 1 ≤ H) (hH : H ≤ 30) (hHL : HL ≤ 30) (hB : BITS ≤ 30) (p : LocalHistoryPredictor)
    (hlen : p.bhist.length = 2 ^ L) (hlen2 : p.LHT.length = 2 ^ HL)
    (addr : Nat) (actual predicted : Bool) :
    ∃ r c b c1 p1,
      p.LHT[addr &&& (2 ^ HL - 1)]? = some r ∧
      p.bhist[(addr ^^^ r.getVal) &&& (2 ^ L - 1)]? = some c ∧
      c.isTaken BITS = some b ∧
      LocalHistoryPredictor.predict L HL BITS p addr = some (b, p) ∧
      (if actual then c.increase BITS else some c.decrease) = some c1 ∧
      LocalHistoryPredictor.update L H HL BITS p actual predicted addr = some p1 ∧
      p1.bhist[(addr ^^^ r.getVal) &&& (2 ^ L - 1)]? = some c1 ∧
      (∀ j, j ≠ (addr ^^^ r.getVal) &&& (2 ^ L - 1) → p1.bhist[j]? = p.bhist[j]?) ∧
      p1.LHT[addr &&& (2 ^ HL - 1)]? =
        some { val := ((r.getVal <<< 1) ||| actual.toNat) % 2 ^ H } ∧
      (∀ j, j ≠ addr &&& (2 ^ HL - 1) → p1.LHT[j]? = p.LHT[j]?) ∧
      p1.bhist.length = p.bhist.length ∧ p1.LHT.length = p.LHT.length := by
  obtain ⟨r, hr⟩ := getElem?_mask p.LHT HL hlen2 addr
  obtain ⟨c, hc⟩ := getElem?_mask p.bhist L hlen (addr ^^^ r.getVal)
  obtain ⟨b, hb⟩ := SaturatingCnt.isTaken_isSome hB c
  obtain ⟨c1, hc1⟩ := SaturatingCnt.step_isSome hB c actual
  have hi : (addr ^^^ r.getVal) &&& (2 ^ L - 1) < p.bhist.length := by
    rw [Nat.and_pow_two_sub_one_eq_mod, hlen]
    exact Nat.mod_lt _ (Nat.two_pow_pos L)
  have hi2 : addr &&& (2 ^ HL - 1) < p.LHT.length := by
    rw [Nat.and_pow_two_sub_one_eq_mod, hlen2]
    exact Nat.mod_lt _ (Nat.two_pow_pos HL)
  refine ⟨r, c, b, c1,
    { bhist := p.bhist.set ((addr ^^^ r.getVal) &&& (2 ^ L - 1)) c1,
      LHT := p.LHT.set (addr &&& (2 ^ HL - 1))
        { val := ((r.val <<< 1) ||| actual.toNat) % 2 ^ H } },
    hr, hc, hb, ?_, hc1, ?_, ?_, ?_, ?_, ?_, ?_, ?_⟩
  · simp only [LocalHistoryPredictor.predict, truncate_eq_mask hL, truncate_eq_mask hHL, hr, hc,
      hb, Option.some_bind, Option.map_some']
  · simp only [LocalHistoryPredictor.update, truncate_eq_mask hL, truncate_eq_mask hHL, hr, hc,
      hc1, Option.some_bind, ShiftReg.shiftIn_of_le hH1 hH, Option.map_some']
  · exact List.getElem?_set_self hi
  · intro j hj
    exact List.getElem?_set_ne (Ne.symm hj)
  · exact List.getElem?_set_self hi2
  · intro j hj
    exact List.getElem?_set_ne (Ne.symm hj)
  · exact List.length_set _ _ _
  · exact List.length_set _ _ _

/-! ## Claims -/

/-- Claim C1 (`increase()` leaves `v` unchanged at `v = 2^N − 1`, for every width
`N < 64`).  At the width `N = 32`, on a `SaturatingCnt<32, 4294967295>` in its initial
state `v = 2^32 − 1`: the bound `(1 << 32) - 1` is the `int` `-1`, `2^64 − 1` as a
`UINT64`, so `increase()` counts on to `2^32` and does not leave `v` unchanged. -/
theorem C1_increase_passes_maximum_at_width_32 :
    (SaturatingCnt.ctor 4294967295).getVal = 2 ^ 32 - 1 ∧
      (SaturatingCnt.ctor 4294967295).increase 32 = some (SaturatingCnt.mk 4294967296) ∧
      (SaturatingCnt.ctor 4294967295).increase 32 ≠ some (SaturatingCnt.ctor 4294967295) := by
  decide

/-- Claim C2 (the value stays in `[0, 2^N − 1]` after every call, for every width
`N < 64`).  At the width `N = 32`: a counter constructed with the initial value
`2^32 − 1` holds `2^32` after one `increase()`, and a counter constructed with the initial
value `0` holds `2^32` after `2^32` calls of `increase()`; `2^32` lies outside
`[0, 2^32 − 1]`. -/
theorem C2_calls_leave_range_at_width_32 :
    (SaturatingCnt.ctor 4294967295).getVal ≤ 2 ^ 32 - 1 ∧
      SaturatingCnt.calls 32 (SaturatingCnt.ctor 4294967295) [CntCall.increase] =
        some (SaturatingCnt.mk 4294967296) ∧
      SaturatingCnt.calls 32 (SaturatingCnt.ctor 0) (List.replicate 4294967296 CntCall.increase) =
        some (SaturatingCnt.mk 4294967296) ∧
      ¬ (SaturatingCnt.mk 4294967296).getVal ≤ 2 ^ 32 - 1 := by
  refine ⟨by decide, by decide, ?_, by decide⟩
  exact SaturatingCnt.calls_increase_of_ge (by decide) (by decide) 4294967296
    (SaturatingCnt.ctor 0) (by decide)

/-- Claim C3 (`isTaken()` holds exactly above `⌊2^N/2⌋ − 1`, which is the
default initial value).  At the width `N = 32` the threshold `(1 << 32) / 2 - 1` is the
`int` `-1`, `2^64 − 1` as a `UINT64`: the state `v = 2^31`, which lies above
`⌊2^32/2⌋ − 1`, reads not taken, and no default initial value exists. -/
theorem C3_isTaken_false_at_width_32 :
    2 ^ 32 / 2 - 1 < 2147483648 ∧ 2147483648 ≤ 2 ^ 32 - 1 ∧
      (SaturatingCnt.mk 2147483648).isTaken 32 = some false ∧
      (SaturatingCnt.mk 2147483648).isTaken 32 ≠ some true ∧
      SaturatingCnt.defaultInit 32 = none := by
  decide

/-- Claim C4 (`shiftIn(b)` returns bit `N − 1` and leaves `((v << 1) | b) mod 2^N`).  At
the width `N = 32` the register reaches `v = 2^31` from the fresh one by `shiftIn(true)`
and 31 calls `shiftIn(false)`.  There `shiftIn(true)` returns bit 31 and leaves
`2^32 + 1`: the mask `(1 << 32) - 1` is the `int` `-1` and removes no bit.  The claim
has `((2^31 << 1) | 1) mod 2^32 = 1`, and `2^32 + 1` is outside `[0, 2^32 − 1]`. -/
theorem C4_shiftIn_keeps_bit_32_at_width_32 :
    ShiftReg.ctor.getVal = 0 ∧
      ShiftReg.shiftIns 32 ShiftReg.ctor (true :: List.replicate 31 false) =
        some (ShiftReg.mk 2147483648) ∧
      2147483648 ≤ 2 ^ 32 - 1 ∧
      (ShiftReg.mk 2147483648).shiftIn 32 true = some (true, ShiftReg.mk 4294967297) ∧
      (ShiftReg.mk 2147483648).shiftIn 32 true ≠
        some (Nat.testBit 2147483648 (32 - 1),
          ShiftReg.mk (((2147483648 <<< 1) ||| 1) % 2 ^ 32)) ∧
      ¬ (ShiftReg.mk 4294967297).getVal ≤ 2 ^ 32 - 1 := by
  decide

/-- Claim C5.  For every `BHTPredictor<L>` that can be constructed, in any
state `p` with the constructed table length, every address and every
`actual`, `predicted`: the slot `addr & (2^L − 1)` holds a counter `c`;
`predict` returns `c.isTaken()` and leaves the state as it is; `update` puts
`c.increase()` (when `actual`) or `c.decrease()` (otherwise) into that slot,
leaves every other slot as it is, and gives the same state for every value of
`predicted`. -/
theorem C5_bht_predict_update (L : Nat) (p0 p : BHTPredictor)
    (hctor : BHTPredictor.ctor L = some p0) (hlen : p.counter.length = p0.counter.length)
    (addr : Nat) (actual predicted : Bool) :
    ∃ c b c1 p1,
      p.counter[addr &&& (2 ^ L - 1)]? = some c ∧
      c.isTaken 2 = some b ∧
      BHTPredictor.predict L p addr = some (b, p) ∧
      (if actual then c.increase 2 else some c.decrease) = some c1 ∧
      BHTPredictor.update L p actual predicted addr = some p1 ∧
      p1.counter[addr &&& (2 ^ L - 1)]? = some c1 ∧
      (∀ j, j ≠ addr &&& (2 ^ L - 1) → p1.counter[j]? = p.counter[j]?) ∧
      p1.counter.length = p.counter.length ∧
      (∀ predicted2, BHTPredictor.update L p actual predicted2 addr = some p1) := by
  obtain ⟨hL, hlen0⟩ := BHTPredictor.bht_ctor_eq_some hctor
  rw [hlen0] at hlen
  obtain ⟨c, hc⟩ := getElem?_mask p.counter L hlen addr
  obtain ⟨b, hb⟩ := SaturatingCnt.isTaken_isSome (show 2 ≤ 30 by decide) c
  obtain ⟨c1, hc1⟩ := SaturatingCnt.step_isSome (show 2 ≤ 30 by decide) c actual
  have hi : addr &&& (2 ^ L - 1) < p.counter.length := by
    rw [Nat.and_pow_two_sub_one_eq_mod, hlen]
    exact Nat.mod_lt _ (Nat.two_pow_pos L)
  have hu : ∀ q, BHTPredictor.update L p actual q addr =
      some { counter := p.counter.set (addr &&& (2 ^ L - 1)) c1 } := by
    intro q
    simp only [BHTPredictor.update, truncate_eq_mask hL, Option.some_bind, hc, hc1,
      Option.map_some']
  refine ⟨c, b, c1, { counter := p.counter.set (addr &&& (2 ^ L - 1)) c1 }, hc, hb, ?_, hc1,
    hu predicted, ?_, ?_, ?_, hu⟩
  · simp only [BHTPredictor.predict, truncate_eq_mask hL, Option.some_bind, hc, hb,
      Option.map_some']
  · exact List.getElem?_set_self hi
  · intro j hj
    exact List.getElem?_set_ne (Ne.symm hj)
  · exact List.length_set _ _ _

/-- Instance of C5: the two-entry table `[3, 0]` of a `BHTPredictor<1>`, the
address `5` (slot 1) and a taken outcome. -/
theorem C5_bht_predict_update_witness :
    BHTPredictor.ctor 1 = some { counter := [{ val := 1 }, { val := 1 }] } ∧
    (BHTPredictor.mk [{ val := 3 }, { val := 0 }]).counter.length =
      (BHTPredictor.mk [{ val := 1 }, { val := 1 }]).counter.length ∧
    ∃ c b c1 p1,
      (BHTPredictor.mk [{ val := 3 }, { val := 0 }]).counter[5 &&& (2 ^ 1 - 1)]? = some c ∧
      c.isTaken 2 = some b ∧
      BHTPredictor.predict 1 (BHTPredictor.mk [{ val := 3 }, { val := 0 }]) 5 =
        some (b, BHTPredictor.mk [{ val := 3 }, { val := 0 }]) ∧
      (if true then c.increase 2 else some c.decrease) = some c1 ∧
      BHTPredictor.update 1 (BHTPredictor.mk [{ val := 3 }, { val := 0 }]) true false 5 =
        some p1 ∧
      p1.counter[5 &&& (2 ^ 1 - 1)]? = some c1 ∧
      (∀ j, j ≠ 5 &&& (2 ^ 1 - 1) →
        p1.counter[j]? = (BHTPredictor.mk [{ val := 3 }, { val := 0 }]).counter[j]?) ∧
      p1.counter.length = (BHTPredictor.mk [{ val := 3 }, { val := 0 }]).counter.length ∧
      (∀ predicted2,
        BHTPredictor.update 1 (BHTPredictor.mk [{ val := 3 }, { val := 0 }]) true predicted2 5 =
          some p1) :=
  ⟨by decide, by decide,
    C5_bht_predict_update 1 (BHTPredictor.mk [{ val := 1 }, { val := 1 }])
      (BHTPredictor.mk [{ val := 3 }, { val := 0 }]) (by decide) (by decide) 5 true false⟩

set_option maxRecDepth 100000 in
/-- Claim C6 (`update` steps the counter the preceding `predict` read and
leaves `((g << 1) | actual) mod 2^H` in the history register).  On a
`GlobalHistoryPredictor<1, 32, 2>`, 32 taken events at address `0` from the fresh state
leave the history `g = 2^32 − 1`.  The next `update(true, true, 0)` leaves `2^33 − 1` in
the history register, not `((g << 1) | 1) mod 2^32 = 2^32 − 1`: the mask `(1 << 32) - 1`
of `GHR.shiftIn` is the `int` `-1` and removes no bit. -/
theorem C6_global_history_passes_width_32 :
    ∃ (p0 p p1 : GlobalHistoryPredictor) (acc : Accumulator),
      GlobalHistoryPredictor.ctor 1 2 = some p0 ∧
      predictBranches (GlobalHistoryPredictor.virt 1 32 2) p0 Accumulator.zero
        (eventsAt 0 (List.replicate 32 true)) = some (p, acc) ∧
      p.GHR.getVal = 4294967295 ∧
      GlobalHistoryPredictor.update 1 32 2 p true true 0 = some p1 ∧
      p1.GHR.getVal = 8589934591 ∧
      p1.GHR.getVal ≠ ((4294967295 <<< 1) ||| true.toNat) % 2 ^ 32 := by
  refine ⟨{ bhist := [{ val := 1 }, { val := 1 }], GHR := { val := 0 } },
    { bhist := [{ val := 2 }, { val := 3 }], GHR := { val := 4294967295 } },
    { bhist := [{ val := 2 }, { val := 3 }], GHR := { val := 8589934591 } },
    Accumulator.mk 30 0 0 2, ?_⟩
  decide

set_option maxRecDepth 100000 in
/-- Claim C7 (`update` steps the counter indexed through the pre-advance local
history and leaves `((h << 1) | actual) mod 2^H` in the history register of
the address).  On a `LocalHistoryPredictor<1, 32, 1, 2>`, 32 taken events at address `0`
from the fresh state leave `h = 2^32 − 1` in `LHT[0]`.  The next `update(true, true, 0)`
leaves `2^33 − 1` in `LHT[0]`, not `((h << 1) | 1) mod 2^32 = 2^32 − 1`: the mask
`(1 << 32) - 1` of `shiftIn` is the `int` `-1` and removes no bit. -/
theorem C7_local_history_passes_width_32 :
    ∃ (p0 p p1 : LocalHistoryPredictor) (acc : Accumulator),
      LocalHistoryPredictor.ctor 1 1 2 = some p0 ∧
      predictBranches (LocalHistoryPredictor.virt 1 32 1 2) p0 Accumulator.zero
        (eventsAt 0 (List.replicate 32 true)) = some (p, acc) ∧
      p.LHT[0 &&& (2 ^ 1 - 1)]? = some (ShiftReg.mk 4294967295) ∧
      LocalHistoryPredictor.update 1 32 1 2 p true true 0 = some p1 ∧
      p1.LHT[0 &&& (2 ^ 1 - 1)]? = some (ShiftReg.mk 8589934591) ∧
      p1.LHT[0 &&& (2 ^ 1 - 1)]? ≠
        some (ShiftReg.mk (((4294967295 <<< 1) ||| true.toNat) % 2 ^ 32)) := by
  refine ⟨{ bhist := [{ val := 1 }, { val := 1 }], LHT := [{ val := 0 }, { val := 0 }] },
    { bhist := [{ val := 2 }, { val := 3 }], LHT := [{ val := 4294967295 }, { val := 0 }] },
    { bhist := [{ val := 2 }, { val := 3 }], LHT := [{ val := 8589934591 }, { val := 0 }] },
    Accumulator.mk 30 0 0 2, ?_⟩
  decide

/-- Claim C8 (the selection counter is the one of the bucket
`addr & (2^L − 1)`, so training one bucket does not change the choice made for
another).  A fresh `TournamentPredictor_LSH<1, 2>` over a base-class predictor
(`BP0`, always not-taken) and a `BHTPredictor<0>` (`BP1`): `predict(1)`
returns `BP0`'s answer.  After two taken events at address `0` (bucket `0`,
while address `1` is in bucket `1`) the table `LSHT` is as constructed, the
counter of bucket `1` still reads not-taken, and yet `predict(1)` returns the
answer of `BP1` (taken) while `BP0` answers not-taken: the choice is made by
the single counter `GSHR`. -/
theorem C8_lsh_selection_is_shared :
    ∃ (bht : BHTPredictor) (t0 t1 t2 : TournamentPredictor_LSH BranchPredictor BHTPredictor),
      BHTPredictor.ctor 0 = some bht ∧
      TournamentPredictor_LSH.ctor 1 2 BranchPredictor.mk bht = some t0 ∧
      TournamentPredictor_LSH.predict 2 BranchPredictor.virt (BHTPredictor.virt 0) t0 1
        = some (false, t0) ∧
      TournamentPredictor_LSH.update 2 BranchPredictor.virt (BHTPredictor.virt 0) t0 true false 0
        = some t1 ∧
      TournamentPredictor_LSH.update 2 BranchPredictor.virt (BHTPredictor.virt 0) t1 true false 0
        = some t2 ∧
      0 &&& (2 ^ 1 - 1) ≠ 1 &&& (2 ^ 1 - 1) ∧
      t2.LSHT = t0.LSHT ∧
      t2.LSHT[1 &&& (2 ^ 1 - 1)]? = some (SaturatingCnt.mk 1) ∧
      (SaturatingCnt.mk 1).isTaken 2 = some false ∧
      BranchPredictor.virt.predict t2.BP0 1 = some (false, t2.BP0) ∧
      (BHTPredictor.virt 0).predict t2.BP1 1 = some (true, t2.BP1) ∧
      TournamentPredictor_LSH.predict 2 BranchPredictor.virt (BHTPredictor.virt 0) t2 1
        = some (true, t2) := by
  refine ⟨{ counter := [{ val := 1 }] },
    { LSHT := [{ val := 1 }, { val := 1 }], GSHR := { val := 1 }, BP0 := {},
      BP1 := { counter := [{ val := 1 }] } },
    { LSHT := [{ val := 1 }, { val := 1 }], GSHR := { val := 1 }, BP0 := {},
      BP1 := { counter := [{ val := 2 }] } },
    { LSHT := [{ val := 1 }, { val := 1 }], GSHR := { val := 2 }, BP0 := {},
      BP1 := { counter := [{ val := 3 }] } }, ?_⟩
  decide

/-- Claim C9.  For a tournament predictor whose selection counter type
`SaturatingCnt<BITS>` exists, in any state `t` (any value of the selection
counter), when the sub-predictors answer `r0` and `r1` at `addr` and their
updates with `(actual, r0, addr)` and `(actual, r1, addr)` give `b0` and `b1`:
`update` ends with `BP0` in `b0` and `BP1` in `b1`; the selection counter is
`decrease()`d when `r0 = actual ≠ r1`, `increase()`d when `r1 = actual ≠ r0`,
and as it was when `r0 = r1`. -/
theorem C9_tournament_update {P0 P1 : Type} (BITS i : Nat)
    (hB : SaturatingCnt.defaultInit BITS = some i) (v0 : Virtual P0) (v1 : Virtual P1)
    (t : TournamentPredictor_LSH P0 P1) (actual predicted : Bool) (addr : Nat) (r0 r1 : Bool)
    (a0 b0 : P0) (a1 b1 : P1)
    (hp0 : v0.predict t.BP0 addr = some (r0, a0))
    (hp1 : v1.predict t.BP1 addr = some (r1, a1))
    (hu0 : v0.update a0 actual r0 addr = some b0)
    (hu1 : v1.update a1 actual r1 addr = some b1) :
    ∃ t1, TournamentPredictor_LSH.update BITS v0 v1 t actual predicted addr = some t1 ∧
      t1.BP0 = b0 ∧ t1.BP1 = b1 ∧
      (r0 = actual → r1 ≠ actual → t1.GSHR = t.GSHR.decrease) ∧
      (r1 = actual → r0 ≠ actual → some t1.GSHR = t.GSHR.increase BITS) ∧
      (r0 = r1 → t1.GSHR = t.GSHR) ∧
      t1.LSHT = t.LSHT := by
  obtain ⟨g, hg⟩ : ∃ g, t.GSHR.increase BITS = some g :=
    ⟨_, SaturatingCnt.increase_of_le (SaturatingCnt.defaultInit_eq_some hB).2 _⟩
  simp only [TournamentPredictor_LSH.update, hp0, hp1, hu0, hu1, Option.some_bind, hg]
  cases r0 <;> cases r1 <;> cases actual <;> simp

/-- Instance of C9: a tournament over a base-class predictor and a
`BHTPredictor<0>` whose counter reads taken, selection counter `1`, a taken
outcome at address `0`: `r0 = false`, `r1 = true`. -/
theorem C9_tournament_update_witness :
    SaturatingCnt.defaultInit 2 = some 1 ∧
    BranchPredictor.virt.predict BranchPredictor.mk 0 = some (false, BranchPredictor.mk) ∧
    (BHTPredictor.virt 0).predict (BHTPredictor.mk [{ val := 2 }]) 0 =
      some (true, BHTPredictor.mk [{ val := 2 }]) ∧
    BranchPredictor.virt.update BranchPredictor.mk true false 0 = some BranchPredictor.mk ∧
    (BHTPredictor.virt 0).update (BHTPredictor.mk [{ val := 2 }]) true true 0 =
      some (BHTPredictor.mk [{ val := 3 }]) ∧
    ∃ t1, TournamentPredictor_LSH.update 2 BranchPredictor.virt (BHTPredictor.virt 0)
        (TournamentPredictor_LSH.mk [{ val := 1 }, { val := 1 }] { val := 1 } BranchPredictor.mk
          (BHTPredictor.mk [{ val := 2 }])) true false 0 = some t1 ∧
      t1.BP0 = BranchPredictor.mk ∧ t1.BP1 = BHTPredictor.mk [{ val := 3 }] ∧
      (false = true → true ≠ true → t1.GSHR = (SaturatingCnt.mk 1).decrease) ∧
      (true = true → false ≠ true → some t1.GSHR = (SaturatingCnt.mk 1).increase 2) ∧
      (false = true → t1.GSHR = SaturatingCnt.mk 1) ∧
      t1.LSHT = [{ val := 1 }, { val := 1 }] :=
  ⟨by decide, by decide, by decide, by decide, by decide,
    C9_tournament_update 2 1 (by decide) BranchPredictor.virt (BHTPredictor.virt 0)
      (TournamentPredictor_LSH.mk [{ val := 1 }, { val := 1 }] { val := 1 } BranchPredictor.mk
        (BHTPredictor.mk [{ val := 2 }])) true false 0 false true BranchPredictor.mk
      BranchPredictor.mk (BHTPredictor.mk [{ val := 2 }]) (BHTPredictor.mk [{ val := 3 }])
      (by decide) (by decide) (by decide) (by decide)⟩

/-- Claim C10 as stated fails where a 64-bit accumulator is at its maximum:
with `notTakenCorrect = 2^64 − 1` and a fresh `BHTPredictor<1>` (which
predicts not-taken at `0x1000`), the not-taken event at `0x1000` leaves
`notTakenCorrect = 0`; none of the four counters has increased by `1`. -/
theorem C10_counterexample_accumulator_wraps :
    ∃ (bht bht1 : BHTPredictor) (acc1 : Accumulator),
      BHTPredictor.ctor 1 = some bht ∧
      BHTPredictor.predict 1 bht 4096 = some (false, bht) ∧
      predictBranch (BHTPredictor.virt 1) bht
          { takenCorrect := 0, takenIncorrect := 0, notTakenCorrect := 18446744073709551615,
            notTakenIncorrect := 0 } 4096 false = some (bht1, acc1) ∧
      acc1.takenCorrect ≠ 0 + 1 ∧ acc1.takenIncorrect ≠ 0 + 1 ∧
      acc1.notTakenCorrect ≠ 18446744073709551615 + 1 ∧ acc1.notTakenIncorrect ≠ 0 + 1 ∧
      acc1.notTakenCorrect = 0 := by
  refine ⟨{ counter := [{ val := 1 }, { val := 1 }] },
    { counter := [{ val := 0 }, { val := 1 }] },
    { takenCorrect := 0, takenIncorrect := 0, notTakenCorrect := 0, notTakenIncorrect := 0 }, ?_⟩
  decide

/-- Claim C10, amended.  For every event `(pc, direction)` on which the active
predictor answers `predicted` and its update returns, `predictBranch` returns
and changes the accumulators in exactly one field, leaving the other three as
they were: `takenCorrect` for `(true, true)`, `takenIncorrect` for
`(true, false)`, `notTakenIncorrect` for `(false, true)`, `notTakenCorrect`
for `(false, false)`.  That field is incremented modulo `2^64`: it increases
by exactly `1` whenever it was below `2^64 − 1`. -/
theorem C10_predictBranch_classifies {P : Type} (v : Virtual P) (BP bp1 bp2 : P)
    (acc : Accumulator) (pc : Nat) (direction predicted : Bool)
    (hp : v.predict BP pc = some (predicted, bp1))
    (hu : v.update bp1 direction predicted pc = some bp2) :
    ∃ acc1, predictBranch v BP acc pc direction = some (bp2, acc1) ∧
      (predicted = true → direction = true →
        acc1 = { acc with takenCorrect := (acc.takenCorrect + 1) % U64 } ∧
        (acc.takenCorrect < U64 - 1 → acc1.takenCorrect = acc.takenCorrect + 1)) ∧
      (predicted = true → direction = false →
        acc1 = { acc with takenIncorrect := (acc.takenIncorrect + 1) % U64 } ∧
        (acc.takenIncorrect < U64 - 1 → acc1.takenIncorrect = acc.takenIncorrect + 1)) ∧
      (predicted = false → direction = true →
        acc1 = { acc with notTakenIncorrect := (acc.notTakenIncorrect + 1) % U64 } ∧
        (acc.notTakenIncorrect < U64 - 1 →
          acc1.notTakenIncorrect = acc.notTakenIncorrect + 1)) ∧
      (predicted = false → direction = false →
        acc1 = { acc with notTakenCorrect := (acc.notTakenCorrect + 1) % U64 } ∧
        (acc.notTakenCorrect < U64 - 1 → acc1.notTakenCorrect = acc.notTakenCorrect + 1)) := by
  have hmod : ∀ n : Nat, n < U64 - 1 → (n + 1) % U64 = n + 1 := by
    intro n hn
    exact Nat.mod_eq_of_lt (by unfold U64 at *; omega)
  have e : predictBranch v BP acc pc direction = some (bp2,
      if predicted then
        if direction then { acc with takenCorrect := (acc.takenCorrect + 1) % U64 }
        else { acc with takenIncorrect := (acc.takenIncorrect + 1) % U64 }
      else
        if direction then { acc with notTakenIncorrect := (acc.notTakenIncorrect + 1) % U64 }
        else { acc with notTakenCorrect := (acc.notTakenCorrect + 1) % U64 }) := by
    simp only [predictBranch, hp, hu, Option.some_bind, Option.map_some']
  rw [e]
  refine ⟨_, rfl, ?_, ?_, ?_, ?_⟩ <;>
  · rintro rfl rfl
    exact ⟨rfl, hmod _⟩

/-- Instance of C10: a fresh `BHTPredictor<1>`, all accumulators `0`, a taken
event at `0x1000`: the prediction is not-taken, `notTakenIncorrect` becomes
`1`. -/
theorem C10_predictBranch_classifies_witness :
    (BHTPredictor.virt 1).predict (BHTPredictor.mk [{ val := 1 }, { val := 1 }]) 4096 =
      some (false, BHTPredictor.mk [{ val := 1 }, { val := 1 }]) ∧
    (BHTPredictor.virt 1).update (BHTPredictor.mk [{ val := 1 }, { val := 1 }]) true false 4096 =
      some (BHTPredictor.mk [{ val := 2 }, { val := 1 }]) ∧
    ∃ acc1, predictBranch (BHTPredictor.virt 1) (BHTPredictor.mk [{ val := 1 }, { val := 1 }])
        Accumulator.zero 4096 true = some (BHTPredictor.mk [{ val := 2 }, { val := 1 }], acc1) ∧
      (false = true → true = true →
        acc1 = { Accumulator.zero with
          takenCorrect := (Accumulator.zero.takenCorrect + 1) % U64 } ∧
        (Accumulator.zero.takenCorrect < U64 - 1 →
          acc1.takenCorrect = Accumulator.zero.takenCorrect + 1)) ∧
      (false = true → true = false →
        acc1 = { Accumulator.zero with
          takenIncorrect := (Accumulator.zero.takenIncorrect + 1) % U64 } ∧
        (Accumulator.zero.takenIncorrect < U64 - 1 →
          acc1.takenIncorrect = Accumulator.zero.takenIncorrect + 1)) ∧
      (false = false → true = true →
        acc1 = { Accumulator.zero with
          notTakenIncorrect := (Accumulator.zero.notTakenIncorrect + 1) % U64 } ∧
        (Accumulator.zero.notTakenIncorrect < U64 - 1 →
          acc1.notTakenIncorrect = Accumulator.zero.notTakenIncorrect + 1)) ∧
      (false = false → true = false →
        acc1 = { Accumulator.zero with
          notTakenCorrect := (Accumulator.zero.notTakenCorrect + 1) % U64 } ∧
        (Accumulator.zero.notTakenCorrect < U64 - 1 →
          acc1.notTakenCorrect = Accumulator.zero.notTakenCorrect + 1)) :=
  ⟨by decide, by decide,
    C10_predictBranch_classifies (BHTPredictor.virt 1)
      (BHTPredictor.mk [{ val := 1 }, { val := 1 }])
      (BHTPredictor.mk [{ val := 1 }, { val := 1 }])
      (BHTPredictor.mk [{ val := 2 }, { val := 1 }]) Accumulator.zero 4096 true false
      (by decide) (by decide)⟩

/-! ## The prediction loop over a stream -/


/-- The result of `predictBranch` once the two calls on the predictor have returned. -/
theorem predictBranch_of {P : Type} (v : Virtual P) (BP bp1 bp2 : P) (acc : Accumulator)
    (pc : Nat) (direction predicted : Bool)
    (hp : v.predict BP pc = some (predicted, bp1))
    (hu : v.update bp1 direction predicted pc = some bp2) :
    predictBranch v BP acc pc direction = some (bp2,
      if predicted then
        if direction then { acc with takenCorrect := (acc.takenCorrect + 1) % U64 }
        else { acc with takenIncorrect := (acc.takenIncorrect + 1) % U64 }
      else
        if direction then { acc with notTakenIncorrect := (acc.notTakenIncorrect + 1) % U64 }
        else { acc with notTakenCorrect := (acc.notTakenCorrect + 1) % U64 }) := by
  simp only [predictBranch, hp, hu, Option.some_bind, Option.map_some']

/-- The loop over `pre ++ post` is the loop over `pre` followed by the loop over `post`. -/
theorem predictBranches_append {P : Type} (v : Virtual P) (pre post : List (Nat × Bool)) :
    ∀ (BP : P) (acc : Accumulator),
      predictBranches v BP acc (pre ++ post) =
        (predictBranches v BP acc pre).bind fun s => predictBranches v s.1 s.2 post := by
  induction pre with
  | nil => intro BP acc; rfl
  | cons e pre ih =>
    intro BP acc
    simp only [List.cons_append, predictBranches]
    cases h : predictBranch v BP acc e.1 e.2 with
    | none => rfl
    | some s => exact ih s.1 s.2

/-- One event below the 64-bit limit adds one to the total and lowers no counter. -/
theorem predictBranch_total {P : Type} (v : Virtual P) (BP bp1 bp2 : P) (acc : Accumulator)
    (pc : Nat) (direction predicted : Bool)
    (hp : v.predict BP pc = some (predicted, bp1))
    (hu : v.update bp1 direction predicted pc = some bp2) (ht : acc.total + 1 < U64) :
    ∃ acc1, predictBranch v BP acc pc direction = some (bp2, acc1) ∧
      acc1.total = acc.total + 1 ∧
      acc.takenCorrect ≤ acc1.takenCorrect ∧ acc.takenIncorrect ≤ acc1.takenIncorrect ∧
      acc.notTakenCorrect ≤ acc1.notTakenCorrect ∧
      acc.notTakenIncorrect ≤ acc1.notTakenIncorrect := by
  rw [predictBranch_of v BP bp1 bp2 acc pc direction predicted hp hu]
  refine ⟨_, rfl, ?_⟩
  unfold Accumulator.total at ht ⊢
  have e : ∀ n : Nat, n + 1 < U64 → (n + 1) % U64 = n + 1 := fun n hn => Nat.mod_eq_of_lt hn
  cases predicted <;> cases direction <;>
    simp only [Bool.false_eq_true, if_false, if_true] <;>
    (rw [e _ (by omega)]; omega)

/-- A stream that keeps the total below `2 ^ 64` adds its length to the total and lowers
no counter, for a predictor whose calls return on the states of an invariant. -/
theorem predictBranches_total {P : Type} (v : Virtual P) (Inv : P → Prop)
    (hpred : ∀ p pc, Inv p → ∃ r p1, v.predict p pc = some (r, p1) ∧ Inv p1)
    (hupd : ∀ p d r pc, Inv p → ∃ p1, v.update p d r pc = some p1 ∧ Inv p1)
    (events : List (Nat × Bool)) :
    ∀ (BP : P) (acc : Accumulator), Inv BP → acc.total + events.length < U64 →
      ∃ bp acc1, predictBranches v BP acc events = some (bp, acc1) ∧ Inv bp ∧
        acc1.total = acc.total + events.length ∧
        acc.takenCorrect ≤ acc1.takenCorrect ∧ acc.takenIncorrect ≤ acc1.takenIncorrect ∧
        acc.notTakenCorrect ≤ acc1.notTakenCorrect ∧
        acc.notTakenIncorrect ≤ acc1.notTakenIncorrect := by
  induction events with
  | nil =>
    intro BP acc hBP _
    exact ⟨BP, acc, rfl, hBP, rfl, le_refl _, le_refl _, le_refl _, le_refl _⟩
  | cons e rest ih =>
    intro BP acc hBP ht
    simp only [List.length_cons] at ht
    obtain ⟨r, p1, hp, hp1⟩ := hpred BP e.1 hBP
    obtain ⟨p2, hu, hp2⟩ := hupd p1 e.2 r e.1 hp1
    obtain ⟨acc1, h1, ht1, a1, a2, a3, a4⟩ :=
      predictBranch_total v BP p1 p2 acc e.1 e.2 r hp hu (by omega)
    obtain ⟨bp, acc2, h2, hbp, ht2, b1, b2, b3, b4⟩ := ih p2 acc1 hp2 (by omega)
    refine ⟨bp, acc2, ?_, hbp, ?_, ?_, ?_, ?_, ?_⟩
    · simp only [predictBranches, h1, Option.some_bind, h2]
    · simp only [List.length_cons]; omega
    all_goals omega

/-- On a table of `2 ^ L` counters, `L ≤ 30`, `predict` reads the slot `addr mod 2 ^ L`. -/
theorem BHTPredictor.bht_predict_eq {L : Nat} (hL : L ≤ 30) (p : BHTPredictor)
    (hlen : p.counter.length = 2 ^ L) (addr : Nat) :
    ∃ c, p.counter[addr % 2 ^ L]? = some c ∧
      BHTPredictor.predict L p addr = some (decide (c.val > 1), p) := by
  have hi : addr % 2 ^ L < p.counter.length := by
    rw [hlen]; exact Nat.mod_lt _ (Nat.two_pow_pos L)
  refine ⟨p.counter[addr % 2 ^ L], List.getElem?_eq_getElem hi, ?_⟩
  simp only [BHTPredictor.predict, truncate_of_le hL, Option.some_bind,
    List.getElem?_eq_getElem hi,
    SaturatingCnt.isTaken_of_le (show 1 ≤ 2 by decide) (show 2 ≤ 30 by decide), Option.map_some']
  rfl

/-- On a table of `2 ^ L` counters, `L ≤ 30`, `update` steps the slot `addr mod 2 ^ L`. -/
theorem BHTPredictor.bht_update_eq {L : Nat} (hL : L ≤ 30) (p : BHTPredictor)
    (hlen : p.counter.length = 2 ^ L) (actual predicted : Bool) (addr : Nat) :
    ∃ c, p.counter[addr % 2 ^ L]? = some c ∧
      BHTPredictor.update L p actual predicted addr =
        some (BHTPredictor.mk (p.counter.set (addr % 2 ^ L)
          (if actual then (if c.val < 3 then { val := c.val + 1 } else c) else c.decrease))) := by
  have hi : addr % 2 ^ L < p.counter.length := by
    rw [hlen]; exact Nat.mod_lt _ (Nat.two_pow_pos L)
  refine ⟨p.counter[addr % 2 ^ L], List.getElem?_eq_getElem hi, ?_⟩
  simp only [BHTPredictor.update, truncate_of_le hL, Option.some_bind,
    List.getElem?_eq_getElem hi, SaturatingCnt.increase_of_le (show 2 ≤ 30 by decide)]
  cases actual <;> simp

/-- The calls of a `BHTPredictor<L>` return on every table of `2 ^ L` counters and keep
the table length. -/
theorem BHTPredictor.bht_virt_total {L : Nat} (hL : L ≤ 30) :
    (∀ p pc, p.counter.length = 2 ^ L →
      ∃ r p1, (BHTPredictor.virt L).predict p pc = some (r, p1) ∧ p1.counter.length = 2 ^ L) ∧
    (∀ p d r pc, p.counter.length = 2 ^ L →
      ∃ p1, (BHTPredictor.virt L).update p d r pc = some p1 ∧ p1.counter.length = 2 ^ L) := by
  constructor
  · intro p pc hlen
    obtain ⟨c, -, h⟩ := BHTPredictor.bht_predict_eq hL p hlen pc
    exact ⟨_, p, h, hlen⟩
  · intro p d r pc hlen
    obtain ⟨c, -, h⟩ := BHTPredictor.bht_update_eq hL p hlen d r pc
    refine ⟨_, h, ?_⟩
    simp only [List.length_set]
    exact hlen

/-- Claim C11.  For every predictor whose calls return on the states of an invariant that
holds at the start, every event stream of length `n < 2^64` run from the all-zero
accumulators and every way of cutting it into `pre ++ mid ++ post`: the loop returns after
`pre`, after `pre ++ mid` and after the whole stream; the four counters sum to the number
of events processed (`n` at the end); and no counter is lower after `pre ++ mid` than
after `pre`. -/
theorem C11_accumulator_total {P : Type} (v : Virtual P) (Inv : P → Prop)
    (hpred : ∀ p pc, Inv p → ∃ r p1, v.predict p pc = some (r, p1) ∧ Inv p1)
    (hupd : ∀ p d r pc, Inv p → ∃ p1, v.update p d r pc = some p1 ∧ Inv p1)
    (BP : P) (hBP : Inv BP) (events pre mid post : List (Nat × Bool))
    (hn : events.length < 2 ^ 64) (hsplit : events = pre ++ mid ++ post) :
    ∃ bp1 acc1 bp2 acc2 bp3 acc3,
      predictBranches v BP Accumulator.zero pre = some (bp1, acc1) ∧
      predictBranches v BP Accumulator.zero (pre ++ mid) = some (bp2, acc2) ∧
      predictBranches v BP Accumulator.zero events = some (bp3, acc3) ∧
      acc3.takenCorrect + acc3.takenIncorrect + acc3.notTakenCorrect + acc3.notTakenIncorrect
        = events.length ∧
      acc2.takenCorrect + acc2.takenIncorrect + acc2.notTakenCorrect + acc2.notTakenIncorrect
        = (pre ++ mid).length ∧
      acc1.takenCorrect ≤ acc2.takenCorrect ∧ acc1.takenIncorrect ≤ acc2.takenIncorrect ∧
      acc1.notTakenCorrect ≤ acc2.notTakenCorrect ∧
      acc1.notTakenIncorrect ≤ acc2.notTakenIncorrect := by
  subst hsplit
  simp only [List.length_append] at hn
  have hU : U64 = 2 ^ 64 := U64_eq
  have hz : Accumulator.zero.total = 0 := rfl
  obtain ⟨bp1, acc1, h1, i1, t1, -⟩ :=
    predictBranches_total v Inv hpred hupd pre BP Accumulator.zero hBP (by omega)
  obtain ⟨bp2, acc2, h2, i2, t2, m1, m2, m3, m4⟩ :=
    predictBranches_total v Inv hpred hupd mid bp1 acc1 i1 (by omega)
  obtain ⟨bp3, acc3, h3, -, t3, -⟩ :=
    predictBranches_total v Inv hpred hupd post bp2 acc2 i2 (by omega)
  have h12 : predictBranches v BP Accumulator.zero (pre ++ mid) = some (bp2, acc2) := by
    rw [predictBranches_append, h1]; exact h2
  have h123 : predictBranches v BP Accumulator.zero (pre ++ mid ++ post) = some (bp3, acc3) := by
    rw [predictBranches_append, h12]; exact h3
  refine ⟨bp1, acc1, bp2, acc2, bp3, acc3, h1, h12, h123, ?_, ?_, m1, m2, m3, m4⟩
  · unfold Accumulator.total at t1 t2 t3 hz
    simp only [List.length_append]; omega
  · unfold Accumulator.total at t1 t2 hz
    simp only [List.length_append]; omega

/-- Instance of C11: the 100-event alternating stream at `0x1000` fed to a fresh
`BHTPredictor<4>` leaves the four counts summing to 100. -/
theorem C11_accumulator_total_witness :
    BHTPredictor.ctor 4 = some { counter := List.replicate 16 { val := 1 } } ∧
    (eventsAt 4096 (alternating true 100)).length = 100 ∧
    ∃ bp1 acc1 bp2 acc2 bp3 acc3,
      predictBranches (BHTPredictor.virt 4) { counter := List.replicate 16 { val := 1 } }
        Accumulator.zero [] = some (bp1, acc1) ∧
      predictBranches (BHTPredictor.virt 4) { counter := List.replicate 16 { val := 1 } }
        Accumulator.zero ([] ++ eventsAt 4096 (alternating true 100)) = some (bp2, acc2) ∧
      predictBranches (BHTPredictor.virt 4) { counter := List.replicate 16 { val := 1 } }
        Accumulator.zero (eventsAt 4096 (alternating true 100)) = some (bp3, acc3) ∧
      acc3.takenCorrect + acc3.takenIncorrect + acc3.notTakenCorrect + acc3.notTakenIncorrect
        = (eventsAt 4096 (alternating true 100)).length ∧
      acc2.takenCorrect + acc2.takenIncorrect + acc2.notTakenCorrect + acc2.notTakenIncorrect
        = ([] ++ eventsAt 4096 (alternating true 100)).length ∧
      acc1.takenCorrect ≤ acc2.takenCorrect ∧ acc1.takenIncorrect ≤ acc2.takenIncorrect ∧
      acc1.notTakenCorrect ≤ acc2.notTakenCorrect ∧
      acc1.notTakenIncorrect ≤ acc2.notTakenIncorrect :=
  ⟨by decide, by decide,
    C11_accumulator_total (BHTPredictor.virt 4) (fun p => p.counter.length = 2 ^ 4)
      (BHTPredictor.bht_virt_total (by decide)).1 (BHTPredictor.bht_virt_total (by decide)).2
      { counter := List.replicate 16 { val := 1 } } (by decide)
      (eventsAt 4096 (alternating true 100)) [] (eventsAt 4096 (alternating true 100)) []
      (by decide) (by simp)⟩

/-! ## A `BHTPredictor` under the loop -/

/-- Writing back the entry a slot holds leaves the table as it is. -/
theorem set_of_getElem? {α : Type} (l : List α) :
    ∀ (i : Nat) (c : α), l[i]? = some c → l.set i c = l := by
  induction l with
  | nil => intro i c _; rfl
  | cons x xs ih =>
    intro i c h
    cases i with
    | zero =>
      simp only [List.getElem?_cons_zero, Option.some.injEq] at h
      rw [List.set_cons_zero, h]
    | succ i =>
      simp only [List.getElem?_cons_succ] at h
      rw [List.set_cons_succ, ih i c h]

/-- A freshly constructed `BHTPredictor<L>`: `L ≤ 30` and `2 ^ L` counters holding `1`. -/
theorem BHTPredictor.bht_ctor_fresh {L : Nat} {p : BHTPredictor}
    (h : BHTPredictor.ctor L = some p) :
    L ≤ 30 ∧ p.counter = List.replicate (2 ^ L) { val := 1 } := by
  unfold BHTPredictor.ctor at h
  cases hn : arraySize L with
  | none => simp [hn] at h
  | some n =>
    obtain ⟨hL, rfl⟩ := arraySize_eq_some hn
    refine ⟨hL, ?_⟩
    rw [hn, SaturatingCnt.defaultInit_of_le (by decide : 1 ≤ 2) (by decide : 2 ≤ 30)] at h
    simp only [Option.some_bind, Option.map_some', Option.some.injEq] at h
    rw [← h]
    rfl

/-- Every slot an address selects in a fresh `BHTPredictor<L>` holds `1`. -/
theorem BHTPredictor.bht_fresh_slot {L : Nat} {p : BHTPredictor}
    (h : BHTPredictor.ctor L = some p) (a : Nat) :
    p.counter.length = 2 ^ L ∧ p.counter[a % 2 ^ L]? = some { val := 1 } := by
  obtain ⟨-, hp⟩ := BHTPredictor.bht_ctor_fresh h
  rw [hp]
  exact ⟨List.length_replicate _ _,
    List.getElem?_replicate_of_lt (Nat.mod_lt _ (Nat.two_pow_pos L))⟩

/-- Two outcomes more of an alternating stream. -/
theorem alternating_add_two (b : Bool) (n : Nat) :
    alternating b (n + 2) = b :: (!b) :: alternating b n := by
  simp only [alternating, Bool.not_not]

/-- One event at address `a` on a table of `2 ^ L` counters: the prediction is that of the
slot `a mod 2 ^ L`, and the slot is stepped. -/
theorem BHTPredictor.bht_predictBranch {L : Nat} (hL : L ≤ 30) (p : BHTPredictor)
    (hlen : p.counter.length = 2 ^ L) (a : Nat) (c : SaturatingCnt)
    (hc : p.counter[a % 2 ^ L]? = some c) (acc : Accumulator) (d : Bool) :
    predictBranch (BHTPredictor.virt L) p acc a d =
      some (BHTPredictor.mk (p.counter.set (a % 2 ^ L)
          (if d then (if c.val < 3 then { val := c.val + 1 } else c) else c.decrease)),
        if decide (c.val > 1) then
          if d then { acc with takenCorrect := (acc.takenCorrect + 1) % U64 }
          else { acc with takenIncorrect := (acc.takenIncorrect + 1) % U64 }
        else
          if d then { acc with notTakenIncorrect := (acc.notTakenIncorrect + 1) % U64 }
          else { acc with notTakenCorrect := (acc.notTakenCorrect + 1) % U64 }) := by
  obtain ⟨c1, hc1, hp⟩ := BHTPredictor.bht_predict_eq hL p hlen a
  obtain ⟨c2, hc2, hu⟩ := BHTPredictor.bht_update_eq hL p hlen d (decide (c.val > 1)) a
  rw [hc] at hc1 hc2
  cases Option.some.inj hc1
  cases Option.some.inj hc2
  exact predictBranch_of (BHTPredictor.virt L) p p _ acc a d _ hp hu

/-- Two events, taken then not taken, on a slot holding `1`: both are mispredicted
and the table is as before. -/
theorem BHTPredictor.bht_taken_notTaken {L : Nat} (hL : L ≤ 30) (p : BHTPredictor)
    (hlen : p.counter.length = 2 ^ L) (a : Nat)
    (hc : p.counter[a % 2 ^ L]? = some { val := 1 }) (acc : Accumulator) :
    predictBranches (BHTPredictor.virt L) p acc [(a, true), (a, false)] =
      some (p, { acc with
        takenIncorrect := (acc.takenIncorrect + 1) % U64,
        notTakenIncorrect := (acc.notTakenIncorrect + 1) % U64 }) := by
  have hi : a % 2 ^ L < p.counter.length := by
    rw [hlen]; exact Nat.mod_lt _ (Nat.two_pow_pos L)
  have h1 := BHTPredictor.bht_predictBranch hL p hlen a _ hc acc true
  have hlen1 : (BHTPredictor.mk (p.counter.set (a % 2 ^ L) { val := 2 })).counter.length
      = 2 ^ L := by
    simp only [List.length_set]; exact hlen
  have hc1 : (BHTPredictor.mk (p.counter.set (a % 2 ^ L) { val := 2 })).counter[a % 2 ^ L]?
      = some { val := 2 } := List.getElem?_set_self hi
  have h2 := BHTPredictor.bht_predictBranch hL _ hlen1 a _ hc1
    { acc with notTakenIncorrect := (acc.notTakenIncorrect + 1) % U64 } false
  have hd : SaturatingCnt.decrease { val := 2 } = { val := 1 } := by decide
  simp only [predictBranches, h1, Option.some_bind]
  simp only [show (1 : Nat) < 3 from by decide, show ¬ ((1 : Nat) > 1) from by decide,
    decide_False, decide_True, if_true, if_false, Bool.false_eq_true] at h2 ⊢
  rw [h2]
  simp only [show (2 : Nat) > 1 from by decide, decide_True, if_true, hd, List.set_set,
    set_of_getElem? p.counter _ _ hc]
  rfl

/-- On a slot holding `1`, `2 * m` alternating events that start with taken are all
mispredicted and leave the table as it was. -/
theorem BHTPredictor.bht_alternating {L : Nat} (hL : L ≤ 30) (p : BHTPredictor)
    (hlen : p.counter.length = 2 ^ L) (a : Nat)
    (hc : p.counter[a % 2 ^ L]? = some { val := 1 }) (m : Nat) :
    ∀ acc : Accumulator, acc.takenIncorrect < U64 → acc.notTakenIncorrect < U64 →
      predictBranches (BHTPredictor.virt L) p acc (eventsAt a (alternating true (2 * m))) =
        some (p, { acc with
          takenIncorrect := (acc.takenIncorrect + m) % U64,
          notTakenIncorrect := (acc.notTakenIncorrect + m) % U64 }) := by
  induction m with
  | zero =>
    intro acc h1 h2
    simp only [Nat.mul_zero, alternating, eventsAt, List.map_nil, predictBranches,
      Nat.add_zero, Nat.mod_eq_of_lt h1, Nat.mod_eq_of_lt h2]
  | succ m ih =>
    intro acc h1 h2
    have e : eventsAt a (alternating true (2 * (m + 1))) =
        [(a, true), (a, false)] ++ eventsAt a (alternating true (2 * m)) := by
      rw [show 2 * (m + 1) = 2 * m + 2 by ring, alternating_add_two]
      rfl
    have hU : 0 < U64 := by decide
    rw [e, predictBranches_append, BHTPredictor.bht_taken_notTaken hL p hlen a hc acc,
      Option.some_bind, ih _ (Nat.mod_lt _ hU) (Nat.mod_lt _ hU)]
    simp only [Nat.mod_add_mod]
    congr 3 <;> ring_nf

/-- Claim C20 as stated fails for `m ≥ 2^64`: after `2 · 2^64` alternating events at
`0x1000` on a fresh `BHTPredictor<1>` the 64-bit counter `takenIncorrect` holds `0`,
not `m = 2^64`. -/
theorem C20_counterexample_count_wraps :
    ∃ (bht bp : BHTPredictor) (acc : Accumulator),
      BHTPredictor.ctor 1 = some bht ∧
      predictBranches (BHTPredictor.virt 1) bht Accumulator.zero
        (eventsAt 4096 (alternating true (2 * 18446744073709551616))) = some (bp, acc) ∧
      acc.takenIncorrect = 0 ∧ acc.notTakenIncorrect = 0 ∧
      acc.takenIncorrect ≠ 18446744073709551616 := by
  have hctor : BHTPredictor.ctor 1 = some { counter := [{ val := 1 }, { val := 1 }] } := by
    decide
  obtain ⟨hlen, hc⟩ := BHTPredictor.bht_fresh_slot hctor 4096
  have h := BHTPredictor.bht_alternating (show 1 ≤ 30 by decide) _ hlen 4096 hc
    18446744073709551616 Accumulator.zero (by decide) (by decide)
  exact ⟨_, _, _, hctor, h, by decide, by decide, by decide⟩

/-- Claim C20, amended.  For a fresh `BHTPredictor<L>`, every address `a` and every
`m`: the loop run from the all-zero accumulators over the `2 · m` strictly alternating
events at `a` that start with taken returns with `takenCorrect = 0`,
`notTakenCorrect = 0`, `takenIncorrect = m mod 2^64` and
`notTakenIncorrect = m mod 2^64` (so both are `m` for `m < 2^64`), the predictor is in
its fresh state, and the indexed counter holds its initial value `1`. -/
theorem C20_alternating_all_wrong (L : Nat) (bht : BHTPredictor)
    (hctor : BHTPredictor.ctor L = some bht) (a m : Nat) :
    ∃ acc idx,
      predictBranches (BHTPredictor.virt L) bht Accumulator.zero
        (eventsAt a (alternating true (2 * m))) = some (bht, acc) ∧
      acc.takenCorrect = 0 ∧ acc.notTakenCorrect = 0 ∧
      acc.takenIncorrect = m % 2 ^ 64 ∧ acc.notTakenIncorrect = m % 2 ^ 64 ∧
      (m < 2 ^ 64 → acc.takenIncorrect = m ∧ acc.notTakenIncorrect = m) ∧
      truncate a L = some idx ∧ bht.counter[idx]? = some { val := 1 } := by
  obtain ⟨hL, -⟩ := BHTPredictor.bht_ctor_fresh hctor
  obtain ⟨hlen, hc⟩ := BHTPredictor.bht_fresh_slot hctor a
  have h := BHTPredictor.bht_alternating hL bht hlen a hc m Accumulator.zero
    (by decide) (by decide)
  refine ⟨_, a % 2 ^ L, h, rfl, rfl, ?_, ?_, ?_, truncate_of_le hL a, hc⟩
  · show (0 + m) % U64 = m % 2 ^ 64
    rw [Nat.zero_add, U64_eq]
  · show (0 + m) % U64 = m % 2 ^ 64
    rw [Nat.zero_add, U64_eq]
  · intro hm
    constructor
    · show (0 + m) % U64 = m
      rw [Nat.zero_add, U64_eq, Nat.mod_eq_of_lt hm]
    · show (0 + m) % U64 = m
      rw [Nat.zero_add, U64_eq, Nat.mod_eq_of_lt hm]

/-- Instance of C20: the 100-event stream at `0x1000` on a fresh `BHTPredictor<4>`
gives the counts 0 / 50 / 0 / 50. -/
theorem C20_alternating_all_wrong_witness :
    BHTPredictor.ctor 4 = some { counter := List.replicate 16 { val := 1 } } ∧
    ∃ acc idx,
      predictBranches (BHTPredictor.virt 4) { counter := List.replicate 16 { val := 1 } }
        Accumulator.zero (eventsAt 4096 (alternating true (2 * 50))) =
          some ({ counter := List.replicate 16 { val := 1 } }, acc) ∧
      acc.takenCorrect = 0 ∧ acc.notTakenCorrect = 0 ∧
      acc.takenIncorrect = 50 % 2 ^ 64 ∧ acc.notTakenIncorrect = 50 % 2 ^ 64 ∧
      (50 < 2 ^ 64 → acc.takenIncorrect = 50 ∧ acc.notTakenIncorrect = 50) ∧
      truncate 4096 4 = some idx ∧
      (BHTPredictor.mk (List.replicate 16 { val := 1 })).counter[idx]? = some { val := 1 } :=
  ⟨by decide,
    C20_alternating_all_wrong 4 { counter := List.replicate 16 { val := 1 } } (by decide)
      4096 50⟩

/-! ## Runs of equal calls on a counter -/

/-- `k` calls of `increase()` from an in-range value, at a width `N ≤ 30`, add `k` and clamp
at `2 ^ N - 1`. -/
theorem SaturatingCnt.calls_replicate_increase {N : Nat} (h : N ≤ 30) (k : Nat) :
    ∀ c : SaturatingCnt, c.val ≤ 2 ^ N - 1 →
      SaturatingCnt.calls N c (List.replicate k CntCall.increase) =
        some { val := min (c.val + k) (2 ^ N - 1) } := by
  induction k with
  | zero =>
    intro c hc
    simp only [List.replicate_zero, SaturatingCnt.calls, Nat.add_zero, Nat.min_eq_left hc]
  | succ k ih =>
    intro c hc
    simp only [List.replicate_succ, SaturatingCnt.calls, SaturatingCnt.call,
      SaturatingCnt.increase_of_le h, Option.some_bind]
    by_cases hlt : c.val < 2 ^ N - 1
    · rw [if_pos hlt, ih _ (show c.val + 1 ≤ 2 ^ N - 1 by omega)]
      congr 2
      show min (c.val + 1 + k) (2 ^ N - 1) = min (c.val + (k + 1)) (2 ^ N - 1)
      rw [Nat.add_assoc, Nat.add_comm 1 k]
    · rw [if_neg hlt, ih _ hc]
      congr 2
      omega

/-- `k` calls of `decrease()` subtract `k` and clamp at `0`. -/
theorem SaturatingCnt.calls_replicate_decrease (N k : Nat) :
    ∀ c : SaturatingCnt, c.val < U64 →
      SaturatingCnt.calls N c (List.replicate k CntCall.decrease) =
        some { val := c.val - k } := by
  induction k with
  | zero => intro c _; rfl
  | succ k ih =>
    intro c hc
    simp only [List.replicate_succ, SaturatingCnt.calls, SaturatingCnt.call, Option.some_bind,
      SaturatingCnt.decrease_of_lt c hc]
    by_cases hpos : c.val > 0
    · rw [if_pos hpos, ih _ (show c.val - 1 < U64 by omega)]
      congr 2
      show c.val - 1 - k = c.val - (k + 1)
      omega
    · rw [if_neg hpos, ih _ hc]
      congr 2
      omega

/-- The loop over events at one address steps the slot of that address once per event:
`increase()` for taken, `decrease()` for not taken. -/
theorem BHTPredictor.bht_loop_slot {L : Nat} (hL : L ≤ 30) (a : Nat) (bs : List Bool) :
    ∀ (p : BHTPredictor) (acc : Accumulator) (c : SaturatingCnt),
      p.counter.length = 2 ^ L → p.counter[a % 2 ^ L]? = some c →
      ∃ p1 acc1 c1,
        predictBranches (BHTPredictor.virt L) p acc (eventsAt a bs) = some (p1, acc1) ∧
        p1.counter.length = 2 ^ L ∧ p1.counter[a % 2 ^ L]? = some c1 ∧
        SaturatingCnt.calls 2 c
          (bs.map fun b => if b then CntCall.increase else CntCall.decrease) = some c1 := by
  induction bs with
  | nil =>
    intro p acc c hlen hc
    exact ⟨p, acc, c, rfl, hlen, hc, rfl⟩
  | cons b bs ih =>
    intro p acc c hlen hc
    have hi : a % 2 ^ L < p.counter.length := by
      rw [hlen]; exact Nat.mod_lt _ (Nat.two_pow_pos L)
    have h1 := BHTPredictor.bht_predictBranch hL p hlen a c hc acc b
    obtain ⟨p1, acc1, c1, hrun, hlen1, hc1, hcalls⟩ :=
      ih (BHTPredictor.mk (p.counter.set (a % 2 ^ L)
          (if b then (if c.val < 3 then { val := c.val + 1 } else c) else c.decrease))) _ _
        (by simp only [List.length_set]; exact hlen) (List.getElem?_set_self hi)
    refine ⟨p1, acc1, c1, ?_, hlen1, hc1, ?_⟩
    · simp only [eventsAt, List.map_cons, predictBranches, h1, Option.some_bind]
      exact hrun
    · simp only [List.map_cons, SaturatingCnt.calls]
      cases b
      · simpa [SaturatingCnt.call] using hcalls
      · simpa [SaturatingCnt.call, SaturatingCnt.increase_of_le (show 2 ≤ 30 by decide)]
          using hcalls

/-- Claim C15.  For a fresh `BHTPredictor<L>`, every address `a`, every `K ≥ 1` (and any
accumulator values): the loop over `K` taken events at `a` returns and `predict(a)` is
then taken; the loop over `K` further not-taken events at `a` returns and `predict(a)`
is then not taken. -/
theorem C15_bht_flips (L : Nat) (bht : BHTPredictor) (hctor : BHTPredictor.ctor L = some bht)
    (a K : Nat) (hK : 1 ≤ K) (acc : Accumulator) :
    ∃ p1 acc1 p2 acc2,
      predictBranches (BHTPredictor.virt L) bht acc (eventsAt a (List.replicate K true))
        = some (p1, acc1) ∧
      BHTPredictor.predict L p1 a = some (true, p1) ∧
      predictBranches (BHTPredictor.virt L) p1 acc1 (eventsAt a (List.replicate K false))
        = some (p2, acc2) ∧
      BHTPredictor.predict L p2 a = some (false, p2) := by
  obtain ⟨hL, -⟩ := BHTPredictor.bht_ctor_fresh hctor
  obtain ⟨hlen, hc⟩ := BHTPredictor.bht_fresh_slot hctor a
  obtain ⟨p1, acc1, c1, hrun1, hlen1, hc1, hcalls1⟩ :=
    BHTPredictor.bht_loop_slot hL a (List.replicate K true) bht acc _ hlen hc
  obtain ⟨p2, acc2, c2, hrun2, hlen2, hc2, hcalls2⟩ :=
    BHTPredictor.bht_loop_slot hL a (List.replicate K false) p1 acc1 _ hlen1 hc1
  simp only [List.map_replicate, if_true, Bool.false_eq_true, if_false] at hcalls1 hcalls2
  rw [SaturatingCnt.calls_replicate_increase (show 2 ≤ 30 by decide) K _
    (show (1 : Nat) ≤ 2 ^ 2 - 1 by decide)] at hcalls1
  cases Option.some.inj hcalls1
  rw [SaturatingCnt.calls_replicate_decrease 2 K _
    (show min (1 + K) (2 ^ 2 - 1) < U64 by unfold U64; omega)] at hcalls2
  cases Option.some.inj hcalls2
  obtain ⟨d1, hd1, hp1⟩ := BHTPredictor.bht_predict_eq hL p1 hlen1 a
  obtain ⟨d2, hd2, hp2⟩ := BHTPredictor.bht_predict_eq hL p2 hlen2 a
  rw [hc1] at hd1
  rw [hc2] at hd2
  cases Option.some.inj hd1
  cases Option.some.inj hd2
  refine ⟨p1, acc1, p2, acc2, hrun1, ?_, hrun2, ?_⟩
  · rw [hp1]
    have : decide (min (1 + K) (2 ^ 2 - 1) > 1) = true := by
      rw [decide_eq_true_eq]; omega
    simp only [this]
  · rw [hp2]
    have : decide (min (1 + K) (2 ^ 2 - 1) - K > 1) = false := by
      rw [decide_eq_false_iff_not]; omega
    simp only [this]

/-- Instance of C15: a fresh `BHTPredictor<1>`, address `5`, `K = 2`. -/
theorem C15_bht_flips_witness :
    BHTPredictor.ctor 1 = some { counter := [{ val := 1 }, { val := 1 }] } ∧ 1 ≤ 2 ∧
    ∃ p1 acc1 p2 acc2,
      predictBranches (BHTPredictor.virt 1) { counter := [{ val := 1 }, { val := 1 }] }
        Accumulator.zero (eventsAt 5 (List.replicate 2 true)) = some (p1, acc1) ∧
      BHTPredictor.predict 1 p1 5 = some (true, p1) ∧
      predictBranches (BHTPredictor.virt 1) p1 acc1 (eventsAt 5 (List.replicate 2 false))
        = some (p2, acc2) ∧
      BHTPredictor.predict 1 p2 5 = some (false, p2) :=
  ⟨by decide, by decide,
    C15_bht_flips 1 { counter := [{ val := 1 }, { val := 1 }] } (by decide) 5 2 (by decide)
      Accumulator.zero⟩

/-- Claim C13 as stated fails already at `N = 2`: from the default initial value `1`
the counter reads taken after one `increase()`, while `⌊2^2/2⌋ = 2`; the second call is
not the one at which `isTaken()` turns true. -/
theorem C13_counterexample_turns_at_first_call :
    SaturatingCnt.defaultInit 2 = some 1 ∧ 2 ^ 2 / 2 = 2 ∧
      (SaturatingCnt.ctor 1).isTaken 2 = some false ∧
      ∃ c, SaturatingCnt.calls 2 (SaturatingCnt.ctor 1) (List.replicate 1 CntCall.increase)
          = some c ∧
        c.isTaken 2 = some true ∧ 1 < 2 ^ 2 / 2 := by
  refine ⟨by decide, by decide, by decide, { val := 2 }, by decide, by decide, by decide⟩

/-- Claim C13, amended.  For every width `N` at which `SaturatingCnt<N>` has its default
initial value `i`: `i = ⌊2^N/2⌋ − 1`; the fresh counter reads not taken; and after every
number `k ≥ 1` of consecutive `increase()` calls (the first call, `⌊2^N/2⌋` calls, any
number of further calls) the calls have returned and `isTaken()` is true. -/
theorem C13_taken_after_increases (N i : Nat) (hinit : SaturatingCnt.defaultInit N = some i) :
    i = 2 ^ N / 2 - 1 ∧
    (SaturatingCnt.ctor i).isTaken N = some false ∧
    ∀ k, 1 ≤ k →
      ∃ c, SaturatingCnt.calls N (SaturatingCnt.ctor i) (List.replicate k CntCall.increase)
          = some c ∧
        c.isTaken N = some true := by
  obtain ⟨h1, h30⟩ := SaturatingCnt.defaultInit_eq_some hinit
  have hi : i = 2 ^ N / 2 - 1 := by
    rw [SaturatingCnt.defaultInit_of_le h1 h30] at hinit
    exact (Option.some.inj hinit).symm
  have h2 : 2 ≤ 2 ^ N := by
    have := Nat.pow_le_pow_right (by norm_num : 0 < 2) h1
    simpa using this
  have hv : (SaturatingCnt.ctor i).val = i := rfl
  refine ⟨hi, ?_, ?_⟩
  · rw [SaturatingCnt.isTaken_of_le h1 h30, hv, hi]
    simp
  · intro k hk
    refine ⟨_, SaturatingCnt.calls_replicate_increase h30 k _ (by rw [hv, hi]; omega), ?_⟩
    rw [SaturatingCnt.isTaken_of_le h1 h30, hv]
    have : min (i + k) (2 ^ N - 1) > 2 ^ N / 2 - 1 := by
      rw [hi]; omega
    simp only [this, decide_True]

/-- Instance of C13: the 2-bit counter. -/
theorem C13_taken_after_increases_witness :
    SaturatingCnt.defaultInit 2 = some 1 ∧
    (1 = 2 ^ 2 / 2 - 1 ∧
    (SaturatingCnt.ctor 1).isTaken 2 = some false ∧
    ∀ k, 1 ≤ k →
      ∃ c, SaturatingCnt.calls 2 (SaturatingCnt.ctor 1) (List.replicate k CntCall.increase)
          = some c ∧
        c.isTaken 2 = some true) :=
  ⟨by decide, C13_taken_after_increases 2 1 (by decide)⟩

/-! ## Sequences of `shiftIn` -/

/-- Shifting left by one and setting the low bit is doubling and adding the bit. -/
theorem shiftLeft_or_bit (v : Nat) (b : Bool) : (v <<< 1) ||| b.toNat = 2 * v + b.toNat := by
  rw [Nat.shiftLeft_eq, Nat.mul_comm, pow_one]
  have := Nat.mul_add_lt_is_or (i := 1) (b := b.toNat) (by cases b <;> decide) v
  simpa using this.symm

/-- The bits of a list spell a number below `2 ^ length`. -/
theorem bitsValue_lt (bs : List Bool) : bitsValue bs < 2 ^ bs.length := by
  induction bs with
  | nil => simp [bitsValue]
  | cons b bs ih =>
    have hb : b.toNat ≤ 1 := by cases b <;> decide
    have hmul : b.toNat * 2 ^ bs.length ≤ 1 * 2 ^ bs.length := Nat.mul_le_mul_right _ hb
    simp only [bitsValue, List.length_cons, pow_succ]
    omega

/-- For `1 ≤ N ≤ 30`, shifting in the bits `bs` from an in-range value `v` leaves
`(v · 2 ^ k + Σ b_j · 2 ^ (k − j)) mod 2 ^ N`. -/
theorem ShiftReg.shiftIns_of_le {N : Nat} (h1 : 1 ≤ N) (h30 : N ≤ 30) (bs : List Bool) :
    ∀ v : Nat, v ≤ 2 ^ N - 1 →
      ShiftReg.shiftIns N { val := v } bs =
        some { val := (v * 2 ^ bs.length + bitsValue bs) % 2 ^ N } := by
  have hpos : 0 < 2 ^ N := Nat.two_pow_pos N
  induction bs with
  | nil =>
    intro v hv
    simp only [ShiftReg.shiftIns, List.length_nil, pow_zero, Nat.mul_one, bitsValue,
      Nat.add_zero, Nat.mod_eq_of_lt (show v < 2 ^ N by omega)]
  | cons b bs ih =>
    intro v hv
    have hlt : (2 * v + b.toNat) % 2 ^ N ≤ 2 ^ N - 1 := by
      have := Nat.mod_lt (2 * v + b.toNat) hpos
      omega
    simp only [ShiftReg.shiftIns, ShiftReg.shiftIn_of_le h1 h30, Option.some_bind,
      shiftLeft_or_bit, ih _ hlt, bitsValue, List.length_cons]
    congr 2
    have e : ((2 * v + b.toNat) % 2 ^ N * 2 ^ bs.length + bitsValue bs) ≡
        ((2 * v + b.toNat) * 2 ^ bs.length + bitsValue bs) [MOD 2 ^ N] :=
      Nat.ModEq.add_right _ (Nat.ModEq.mul_right _ (Nat.mod_modEq _ _))
    rw [e]
    congr 1
    ring

/-- The same bit `n` times spells `b · (2 ^ n − 1)`. -/
theorem bitsValue_replicate (b : Bool) (n : Nat) :
    bitsValue (List.replicate n b) = b.toNat * (2 ^ n - 1) := by
  induction n with
  | zero => simp [bitsValue]
  | succ n ih =>
    have hp : 0 < 2 ^ n := Nat.two_pow_pos n
    simp only [List.replicate_succ, bitsValue, ih, List.length_replicate, pow_succ]
    cases b
    · simp
    · simp only [Bool.toNat_true, Nat.one_mul]
      omega

/-- For `1 ≤ N ≤ 30`, `N` calls of `shiftIn` with the same bit `b` leave
`b · (2 ^ N − 1)`, whatever in-range value the register held. -/
theorem ShiftReg.shiftIns_replicate {N : Nat} (h1 : 1 ≤ N) (h30 : N ≤ 30) (b : Bool) (v : Nat)
    (hv : v ≤ 2 ^ N - 1) :
    ShiftReg.shiftIns N { val := v } (List.replicate N b) =
      some { val := b.toNat * (2 ^ N - 1) } := by
  have hpos : 0 < 2 ^ N := Nat.two_pow_pos N
  rw [ShiftReg.shiftIns_of_le h1 h30 _ v hv, bitsValue_replicate, List.length_replicate,
    Nat.add_comm, Nat.add_mul_mod_self_right]
  congr 2
  apply Nat.mod_eq_of_lt
  cases b
  · simp
  · simp only [Bool.toNat_true, Nat.one_mul]
    omega

/-- Bit `i` of the number the bits `b_1 .. b_k` spell is the bit `b_(k − i)`, the last
bit of the list being bit `0`. -/
theorem bitsValue_testBit (bs : List Bool) :
    ∀ i, i < bs.length → bs[bs.length - 1 - i]? = some ((bitsValue bs).testBit i) := by
  induction bs with
  | nil => intro i hi; simp at hi
  | cons b bs ih =>
    intro i hi
    simp only [List.length_cons] at hi
    have hb := bitsValue_lt bs
    simp only [bitsValue, List.length_cons, Nat.add_sub_cancel]
    rw [Nat.mul_comm, Nat.testBit_mul_pow_two_add _ hb]
    by_cases hlt : i < bs.length
    · rw [if_pos hlt, ← ih i hlt]
      rw [show bs.length - i = (bs.length - 1 - i) + 1 by omega, List.getElem?_cons_succ]
    · have hi' : i = bs.length := by omega
      subst hi'
      rw [if_neg hlt, Nat.sub_self, List.getElem?_cons_zero]
      cases b <;> rfl

/-- For `1 ≤ N ≤ 30`, after the bits `b_1 .. b_k` bit `i < min k N` of the register is
the bit shifted in `i + 1` calls ago. -/
theorem ShiftReg.shiftIns_testBit {N : Nat} (h1 : 1 ≤ N) (h30 : N ≤ 30) (bs : List Bool)
    (v : Nat) (hv : v ≤ 2 ^ N - 1) (i : Nat) (hik : i < bs.length) (hiN : i < N) :
    ∃ r, ShiftReg.shiftIns N { val := v } bs = some r ∧
      bs[bs.length - 1 - i]? = some (r.getVal.testBit i) := by
  refine ⟨_, ShiftReg.shiftIns_of_le h1 h30 bs v hv, ?_⟩
  rw [bitsValue_testBit bs i hik]
  show some ((bitsValue bs).testBit i) =
    some (((v * 2 ^ bs.length + bitsValue bs) % 2 ^ N).testBit i)
  rw [Nat.testBit_mod_two_pow, Nat.mul_comm, Nat.testBit_mul_pow_two_add _ (bitsValue_lt bs),
    if_pos hik]
  simp [hiN]

/-- Claim C14 (after the bits `b_1 .. b_k` the register holds
`(v0 · 2^k + Σ b_j · 2^(k−j)) mod 2^N`; `N` equal bits `b` leave `b · (2^N − 1)` from any
starting value).  At the width `N = 32`: 33 calls `shiftIn(true)` on the fresh register
leave `2^33 − 1`, not `(2^33 − 1) mod 2^32 = 2^32 − 1`; and 32 calls `shiftIn(false)` on
the register holding `1` leave `2^32`, not `0 · (2^32 − 1) = 0`.  The mask
`(1 << 32) - 1` is the `int` `-1` and removes no bit. -/
theorem C14_shiftIns_pass_width_32 :
    ShiftReg.shiftIns 32 ShiftReg.ctor (List.replicate 33 true) =
        some (ShiftReg.mk 8589934591) ∧
      ShiftReg.shiftIns 32 ShiftReg.ctor (List.replicate 33 true) ≠
        some (ShiftReg.mk ((0 * 2 ^ 33 + bitsValue (List.replicate 33 true)) % 2 ^ 32)) ∧
      ShiftReg.shiftIns 32 (ShiftReg.mk 1) (List.replicate 32 false) =
        some (ShiftReg.mk 4294967296) ∧
      ShiftReg.shiftIns 32 (ShiftReg.mk 1) (List.replicate 32 false) ≠
        some (ShiftReg.mk (false.toNat * (2 ^ 32 - 1))) := by
  decide

/-! ## Table lengths in reachable states -/

/-- A constructed `LocalHistoryPredictor<L, H, HL, BITS>` has `L, HL ≤ 30`, `2 ^ L`
counters and `2 ^ HL` history registers. -/
theorem LocalHistoryPredictor.lhp_ctor_eq_some {L HL BITS : Nat} {p : LocalHistoryPredictor}
    (h : LocalHistoryPredictor.ctor L HL BITS = some p) :
    L ≤ 30 ∧ HL ≤ 30 ∧ p.bhist.length = 2 ^ L ∧ p.LHT.length = 2 ^ HL := by
  simp only [LocalHistoryPredictor.ctor, Option.bind_eq_some, Option.map_eq_some'] at h
  obtain ⟨n, hn, i, -, m, hm, rfl⟩ := h
  obtain ⟨hL, rfl⟩ := arraySize_eq_some hn
  obtain ⟨hHL, rfl⟩ := arraySize_eq_some hm
  exact ⟨hL, hHL, List.length_replicate _ _, List.length_replicate _ _⟩

/-- Two histories give the same low `L` bits of `a ^ h` exactly when they agree in their
low `L` bits. -/
theorem xor_mod_eq_iff (L a h1 h2 : Nat) :
    (a ^^^ h1) % 2 ^ L = (a ^^^ h2) % 2 ^ L ↔ ∀ i, i < L → h1.testBit i = h2.testBit i := by
  constructor
  · intro h i hi
    have := congrArg (fun x => Nat.testBit x i) h
    simp only [Nat.testBit_mod_two_pow, Nat.testBit_xor, hi, decide_True, Bool.true_and] at this
    cases ha : a.testBit i <;> simpa [ha] using this
  · intro h
    apply Nat.eq_of_testBit_eq
    intro i
    simp only [Nat.testBit_mod_two_pow, Nat.testBit_xor]
    by_cases hi : i < L
    · simp [hi, h i hi]
    · simp [hi]

/-- Claim C16.  For every pattern-table exponent `L` of a constructed
`LocalHistoryPredictor`, every address `a` and histories `h1`, `h2`: the index both
predictors compute from `a ^ h` is `(a ^ h) & (2^L − 1)` (`cut` in
`GlobalHistoryPredictor`, `truncate` in `LocalHistoryPredictor`), and the indices for `h1`
and `h2` are equal exactly when `h1` and `h2` agree in bits `0 .. L − 1`.  And for each
predictor there are two event streams that leave the same counter table and different
histories, after which `predict(0)` is taken after one and not taken after the other. -/
theorem C16_xor_hash_differentiates (L HL BITS : Nat) (l0 : LocalHistoryPredictor)
    (hl0 : LocalHistoryPredictor.ctor L HL BITS = some l0) (a h1 h2 : Nat) :
    (cut (a ^^^ h1) L = (a ^^^ h1) &&& (2 ^ L - 1) ∧
      truncate (a ^^^ h1) L = some ((a ^^^ h1) &&& (2 ^ L - 1))) ∧
    (cut (a ^^^ h1) L = cut (a ^^^ h2) L ↔ ∀ i, i < L → h1.testBit i = h2.testBit i) ∧
    (truncate (a ^^^ h1) L = truncate (a ^^^ h2) L ↔
      ∀ i, i < L → h1.testBit i = h2.testBit i) ∧
    (∃ (sA sB : List (Nat × Bool)) (g0 gA gB : GlobalHistoryPredictor)
        (accA accB : Accumulator),
      GlobalHistoryPredictor.ctor 1 2 = some g0 ∧
      predictBranches (GlobalHistoryPredictor.virt 1 1 2) g0 Accumulator.zero sA
        = some (gA, accA) ∧
      predictBranches (GlobalHistoryPredictor.virt 1 1 2) g0 Accumulator.zero sB
        = some (gB, accB) ∧
      gA.GHR.getVal ≠ gB.GHR.getVal ∧ gA.bhist = gB.bhist ∧
      GlobalHistoryPredictor.predict 1 2 gA 0 = some (true, gA) ∧
      GlobalHistoryPredictor.predict 1 2 gB 0 = some (false, gB)) ∧
    (∃ (sA sB : List (Nat × Bool)) (p0 pA pB : LocalHistoryPredictor)
        (accA accB : Accumulator),
      LocalHistoryPredictor.ctor 1 1 2 = some p0 ∧
      predictBranches (LocalHistoryPredictor.virt 1 1 1 2) p0 Accumulator.zero sA
        = some (pA, accA) ∧
      predictBranches (LocalHistoryPredictor.virt 1 1 1 2) p0 Accumulator.zero sB
        = some (pB, accB) ∧
      pA.LHT[0 &&& (2 ^ 1 - 1)]? ≠ pB.LHT[0 &&& (2 ^ 1 - 1)]? ∧ pA.bhist = pB.bhist ∧
      LocalHistoryPredictor.predict 1 1 2 pA 0 = some (true, pA) ∧
      LocalHistoryPredictor.predict 1 1 2 pB 0 = some (false, pB)) := by
  obtain ⟨hL, -⟩ := LocalHistoryPredictor.lhp_ctor_eq_some hl0
  refine ⟨⟨rfl, truncate_eq_mask hL _⟩, ?_, ?_, ?_, ?_⟩
  · rw [cut, cut, Nat.and_pow_two_sub_one_eq_mod, Nat.and_pow_two_sub_one_eq_mod]
    exact xor_mod_eq_iff L a h1 h2
  · rw [truncate_of_le hL, truncate_of_le hL, Option.some.injEq]
    exact xor_mod_eq_iff L a h1 h2
  · refine ⟨[(0, true), (0, false)], [(1, false), (0, true)],
      { bhist := [{ val := 1 }, { val := 1 }], GHR := { val := 0 } },
      { bhist := [{ val := 2 }, { val := 0 }], GHR := { val := 0 } },
      { bhist := [{ val := 2 }, { val := 0 }], GHR := { val := 1 } },
      { takenCorrect := 0, takenIncorrect := 0, notTakenCorrect := 1, notTakenIncorrect := 1 },
      { takenCorrect := 0, takenIncorrect := 0, notTakenCorrect := 1, notTakenIncorrect := 1 },
      ?_⟩
    decide
  · refine ⟨[(0, true), (0, false)], [(0, true), (1, false)],
      { bhist := [{ val := 1 }, { val := 1 }], LHT := [{ val := 0 }, { val := 0 }] },
      { bhist := [{ val := 2 }, { val := 0 }], LHT := [{ val := 0 }, { val := 0 }] },
      { bhist := [{ val := 2 }, { val := 0 }], LHT := [{ val := 1 }, { val := 0 }] },
      { takenCorrect := 0, takenIncorrect := 0, notTakenCorrect := 1, notTakenIncorrect := 1 },
      { takenCorrect := 0, takenIncorrect := 0, notTakenCorrect := 1, notTakenIncorrect := 1 },
      ?_⟩
    decide

/-- Instance of C16: `L = 1`, the address `0x1000`, the histories `2` and `3`. -/
theorem C16_xor_hash_differentiates_witness :
    LocalHistoryPredictor.ctor 1 1 2 =
      some { bhist := [{ val := 1 }, { val := 1 }], LHT := [{ val := 0 }, { val := 0 }] } ∧
    (cut (4096 ^^^ 2) 1 = cut (4096 ^^^ 3) 1 ↔
      ∀ i, i < 1 → Nat.testBit 2 i = Nat.testBit 3 i) ∧
    (truncate (4096 ^^^ 2) 1 = truncate (4096 ^^^ 3) 1 ↔
      ∀ i, i < 1 → Nat.testBit 2 i = Nat.testBit 3 i) :=
  ⟨by decide,
    (C16_xor_hash_differentiates 1 1 2
      { bhist := [{ val := 1 }, { val := 1 }], LHT := [{ val := 0 }, { val := 0 }] }
      (by decide) 4096 2 3).2.1,
    (C16_xor_hash_differentiates 1 1 2
      { bhist := [{ val := 1 }, { val := 1 }], LHT := [{ val := 0 }, { val := 0 }] }
      (by decide) 4096 2 3).2.2.1⟩

/-! ## The tournament under the loop -/

/-- One event on which `BP0` answers the outcome and `BP1` the opposite: the loop step
returns, both sub-predictors are updated and the selection counter `GSHR` is
`decrease()`d. -/
theorem TournamentPredictor_LSH.lsh_step_bp0_right {P0 P1 : Type} {BITS : Nat}
    (hB : BITS ≤ 30) (v0 : Virtual P0) (v1 : Virtual P1) (t : TournamentPredictor_LSH P0 P1)
    (acc : Accumulator) (addr : Nat) (a : Bool) (b0 : P0) (b1 : P1)
    (hp0 : v0.predict t.BP0 addr = some (a, t.BP0))
    (hp1 : v1.predict t.BP1 addr = some (!a, t.BP1))
    (hu0 : v0.update t.BP0 a a addr = some b0)
    (hu1 : v1.update t.BP1 a (!a) addr = some b1) :
    ∃ acc1, predictBranch (TournamentPredictor_LSH.virt BITS v0 v1) t acc addr a =
      some ({ LSHT := t.LSHT, GSHR := t.GSHR.decrease, BP0 := b0, BP1 := b1 }, acc1) := by
  obtain ⟨sel, hsel⟩ := SaturatingCnt.isTaken_isSome hB t.GSHR
  have hpred : ∃ r, (TournamentPredictor_LSH.virt BITS v0 v1).predict t addr = some (r, t) := by
    cases sel
    · exact ⟨a, by simp [TournamentPredictor_LSH.virt, TournamentPredictor_LSH.predict, hsel,
        hp0]⟩
    · exact ⟨!a, by simp [TournamentPredictor_LSH.virt, TournamentPredictor_LSH.predict, hsel,
        hp1]⟩
  obtain ⟨r, hr⟩ := hpred
  have hupd : (TournamentPredictor_LSH.virt BITS v0 v1).update t a r addr =
      some { LSHT := t.LSHT, GSHR := t.GSHR.decrease, BP0 := b0, BP1 := b1 } := by
    simp only [TournamentPredictor_LSH.virt, TournamentPredictor_LSH.update, hp0, hp1, hu0, hu1,
      Option.some_bind]
    cases a <;> simp
  exact ⟨_, predictBranch_of _ t t _ acc addr a r hr hupd⟩

/-- Along a stream on which, at every event, `BP0` answers the outcome and `BP1` the
opposite, the loop returns after every prefix and has `decrease()`d `GSHR` once per
event. -/
theorem TournamentPredictor_LSH.lsh_prefix_bp0_right {P0 P1 : Type} {BITS : Nat}
    (hB : BITS ≤ 30) (v0 : Virtual P0) (v1 : Virtual P1) (addr : Nat) (pre : List Bool) :
    ∀ (t : TournamentPredictor_LSH P0 P1) (acc : Accumulator) (outcomes post : List Bool),
      t.GSHR.val < U64 → outcomes = pre ++ post →
      (∀ pre2 a post2, outcomes = pre2 ++ a :: post2 → ∀ t1 acc1,
        predictBranches (TournamentPredictor_LSH.virt BITS v0 v1) t acc (eventsAt addr pre2)
          = some (t1, acc1) →
        v0.predict t1.BP0 addr = some (a, t1.BP0) ∧
        v1.predict t1.BP1 addr = some (!a, t1.BP1) ∧
        (∃ b0, v0.update t1.BP0 a a addr = some b0) ∧
        (∃ b1, v1.update t1.BP1 a (!a) addr = some b1)) →
      ∃ t1 acc1,
        predictBranches (TournamentPredictor_LSH.virt BITS v0 v1) t acc (eventsAt addr pre)
          = some (t1, acc1) ∧
        t1.GSHR.val = t.GSHR.val - pre.length := by
  induction pre with
  | nil =>
    intro t acc outcomes post _ _ _
    exact ⟨t, acc, rfl, rfl⟩
  | cons a pre ih =>
    intro t acc outcomes post hval hsplit hstream
    obtain ⟨hp0, hp1, ⟨b0, hu0⟩, ⟨b1, hu1⟩⟩ :=
      hstream [] a (pre ++ post) (by rw [hsplit]; rfl) t acc rfl
    obtain ⟨acc1, hstep⟩ :=
      TournamentPredictor_LSH.lsh_step_bp0_right hB v0 v1 t acc addr a b0 b1 hp0 hp1 hu0 hu1
    have hdec : t.GSHR.decrease.val = t.GSHR.val - 1 := by
      rw [SaturatingCnt.decrease_of_lt _ hval]
      split
      · rfl
      · show t.GSHR.val = t.GSHR.val - 1
        omega
    obtain ⟨t2, acc2, hrun, hval2⟩ :=
      ih { LSHT := t.LSHT, GSHR := t.GSHR.decrease, BP0 := b0, BP1 := b1 } acc1
        (pre ++ post) post (by rw [hdec]; omega) rfl
        (by
          intro pre2 a2 post2 h2 t1 acc3 hrun2
          apply hstream (a :: pre2) a2 post2 (by rw [hsplit, List.cons_append, h2]; rfl) t1 acc3
          simp only [eventsAt, List.map_cons, predictBranches, hstep, Option.some_bind]
          exact hrun2)
    refine ⟨t2, acc2, ?_, ?_⟩
    · simp only [eventsAt, List.map_cons, predictBranches, hstep, Option.some_bind]
      exact hrun
    · rw [hval2, hdec, List.length_cons]
      omega

/-- Claim C17.  For a tournament predictor whose selection counter type
`SaturatingCnt<BITS>` exists, in any state `t` with the selection counter in
`[0, 2^BITS − 1]`, and every stream of events at `addr` on which, at every event, `BP0`
answers the actual outcome and `BP1` the opposite (each answer leaving the sub-predictor
as it is, each update returning): after every prefix of at least `2^(BITS−1)` events the
loop has returned, the selection counter reads not taken, and the tournament's
`predict(addr)` returns what `BP0.predict(addr)` returns. -/
theorem C17_selection_converges {P0 P1 : Type} (BITS i : Nat)
    (hB : SaturatingCnt.defaultInit BITS = some i) (v0 : Virtual P0) (v1 : Virtual P1)
    (t : TournamentPredictor_LSH P0 P1) (hsel : t.GSHR.val ≤ 2 ^ BITS - 1)
    (acc : Accumulator) (addr : Nat) (outcomes pre post : List Bool)
    (hstream : ∀ pre2 a post2, outcomes = pre2 ++ a :: post2 → ∀ t1 acc1,
      predictBranches (TournamentPredictor_LSH.virt BITS v0 v1) t acc (eventsAt addr pre2)
        = some (t1, acc1) →
      v0.predict t1.BP0 addr = some (a, t1.BP0) ∧
      v1.predict t1.BP1 addr = some (!a, t1.BP1) ∧
      (∃ b0, v0.update t1.BP0 a a addr = some b0) ∧
      (∃ b1, v1.update t1.BP1 a (!a) addr = some b1))
    (hsplit : outcomes = pre ++ post) (hlen : 2 ^ (BITS - 1) ≤ pre.length) :
    ∃ t1 acc1,
      predictBranches (TournamentPredictor_LSH.virt BITS v0 v1) t acc (eventsAt addr pre)
        = some (t1, acc1) ∧
      t1.GSHR.isTaken BITS = some false ∧
      (TournamentPredictor_LSH.predict BITS v0 v1 t1 addr).map Prod.fst =
        (v0.predict t1.BP0 addr).map Prod.fst := by
  obtain ⟨h1, h30⟩ := SaturatingCnt.defaultInit_eq_some hB
  have hp := two_pow_le_of_le h30
  have hpow : 2 ^ BITS = 2 * 2 ^ (BITS - 1) := by
    rw [← pow_succ']
    congr 1
    omega
  obtain ⟨t1, acc1, hrun, hval⟩ :=
    TournamentPredictor_LSH.lsh_prefix_bp0_right h30 v0 v1 addr pre t acc outcomes post
      (by unfold U64; omega) hsplit hstream
  have hnot : t1.GSHR.isTaken BITS = some false := by
    rw [SaturatingCnt.isTaken_of_le h1 h30]
    have : ¬ (t1.GSHR.val > 2 ^ BITS / 2 - 1) := by
      rw [hval, hpow]
      omega
    simp only [this, decide_False]
  refine ⟨t1, acc1, hrun, hnot, ?_⟩
  simp only [TournamentPredictor_LSH.predict, hnot, Option.some_bind, Bool.not_false, if_true,
    Option.map_map]
  cases v0.predict t1.BP0 addr <;> rfl

/-- Instance of C17: a 2-bit selection counter at its maximum `3`, `BP0` a base-class
predictor (always not taken), `BP1` a `BHTPredictor<0>` whose counter holds `3`, and two
not-taken events at address `0`. -/
theorem C17_selection_converges_witness :
    SaturatingCnt.defaultInit 2 = some 1 ∧ 2 ^ (2 - 1) ≤ [false, false].length ∧
    ∃ t1 acc1,
      predictBranches (TournamentPredictor_LSH.virt 2 BranchPredictor.virt (BHTPredictor.virt 0))
        (TournamentPredictor_LSH.mk [{ val := 1 }] { val := 3 } BranchPredictor.mk
          (BHTPredictor.mk [{ val := 3 }]))
        Accumulator.zero (eventsAt 0 [false, false]) = some (t1, acc1) ∧
      t1.GSHR.isTaken 2 = some false ∧
      (TournamentPredictor_LSH.predict 2 BranchPredictor.virt (BHTPredictor.virt 0) t1 0).map
          Prod.fst =
        (BranchPredictor.virt.predict t1.BP0 0).map Prod.fst :=
  ⟨by decide, by decide,
    C17_selection_converges 2 1 (by decide) BranchPredictor.virt (BHTPredictor.virt 0)
      (TournamentPredictor_LSH.mk [{ val := 1 }] { val := 3 } BranchPredictor.mk
        (BHTPredictor.mk [{ val := 3 }]))
      (by decide) Accumulator.zero 0 [false, false] [false, false] []
      (by
        intro pre2 a post2 h t1 acc1 hrun
        match pre2, h, hrun with
        | [], h, hrun =>
          simp only [List.nil_append, List.cons.injEq] at h
          obtain ⟨rfl, -⟩ := h
          cases Option.some.inj hrun
          exact ⟨by decide, by decide, ⟨BranchPredictor.mk, by decide⟩,
            ⟨BHTPredictor.mk [{ val := 2 }], by decide⟩⟩
        | [x], h, hrun =>
          simp only [List.cons_append, List.nil_append, List.cons.injEq] at h
          obtain ⟨rfl, rfl, -⟩ := h
          rw [show predictBranches
              (TournamentPredictor_LSH.virt 2 BranchPredictor.virt (BHTPredictor.virt 0))
              (TournamentPredictor_LSH.mk [{ val := 1 }] { val := 3 } BranchPredictor.mk
                (BHTPredictor.mk [{ val := 3 }]))
              Accumulator.zero (eventsAt 0 [false]) =
            some (TournamentPredictor_LSH.mk [{ val := 1 }] { val := 2 } BranchPredictor.mk
                (BHTPredictor.mk [{ val := 2 }]),
              { takenCorrect := 0, takenIncorrect := 1, notTakenCorrect := 0,
                notTakenIncorrect := 0 }) by decide] at hrun
          cases Option.some.inj hrun
          exact ⟨by decide, by decide, ⟨BranchPredictor.mk, by decide⟩,
            ⟨BHTPredictor.mk [{ val := 1 }], by decide⟩⟩
        | x :: y :: rest, h, _ =>
          have := congrArg List.length h
          simp at this)
      (by decide) (by decide)⟩

/-! ## The precision of the report -/

/-- The precision for accumulators whose sum is below `2 ^ 64`. -/
theorem Fini_of_lt (acc : Accumulator)
    (h : acc.takenCorrect + acc.takenIncorrect + acc.notTakenCorrect + acc.notTakenIncorrect
      < 2 ^ 64) :
    Fini acc =
      if acc.takenCorrect + acc.takenIncorrect + acc.notTakenCorrect + acc.notTakenIncorrect = 0
      then Double.nan
      else Double.finite
        (100 * ((acc.takenCorrect + acc.notTakenCorrect : Nat) : ℚ) /
          ((acc.takenCorrect + acc.takenIncorrect + acc.notTakenCorrect
            + acc.notTakenIncorrect : Nat) : ℚ)) := by
  have hc : (acc.takenCorrect + acc.notTakenCorrect) % U64
      = acc.takenCorrect + acc.notTakenCorrect := by unfold U64; omega
  have ht : (((acc.takenCorrect + acc.notTakenCorrect) % U64 + acc.takenIncorrect) % U64
      + acc.notTakenIncorrect) % U64
      = acc.takenCorrect + acc.takenIncorrect + acc.notTakenCorrect + acc.notTakenIncorrect := by
    unfold U64; omega
  unfold Fini
  rw [ht, hc]
  by_cases hz : acc.takenCorrect + acc.takenIncorrect + acc.notTakenCorrect
      + acc.notTakenIncorrect = 0
  · have hc0 : acc.takenCorrect + acc.notTakenCorrect = 0 := by omega
    simp [Double.ofCount, Double.mul, Double.div, hc0, hz]
  · generalize acc.takenCorrect + acc.takenIncorrect + acc.notTakenCorrect
      + acc.notTakenIncorrect = t at hz ⊢
    generalize acc.takenCorrect + acc.notTakenCorrect = c
    simp only [Double.ofCount, Double.mul, Double.div]
    rw [if_neg (by exact_mod_cast hz), if_neg hz]
    simp

/-- Claim C12 as stated fails at a zero total: with all four accumulators `0` the
value of `precision` is the result of the division `100 * double(0) / 0`, which is NaN;
nothing else is produced.  It also fails where the 64-bit sums wrap: with
`takenCorrect = notTakenCorrect = 2^63` the total `2^64` is not zero, both sums are `0`
in `UINT64`, and the result is NaN again. -/
theorem C12_counterexample_zero_total_divides :
    Fini Accumulator.zero =
        Double.div (Double.mul (Double.ofCount 100) (Double.ofCount 0)) (Double.ofCount 0) ∧
      Fini Accumulator.zero = Double.nan ∧
      Fini (Accumulator.mk 9223372036854775808 0 9223372036854775808 0) = Double.nan := by
  refine ⟨rfl, ?_, ?_⟩
  · simp [Fini, Accumulator.zero, Double.ofCount, Double.mul, Double.div]
  · simp [Fini, Double.ofCount, Double.mul, Double.div, U64]

/-- Claim C12, amended.  For accumulators whose sum is below `2^64`: when the total is
not zero the precision is `100 × (takenCorrect + notTakenCorrect) / total` (before
rounding to `double`); when the total is zero the division is performed all the same and
the precision is NaN. -/
theorem C12_precision (acc : Accumulator)
    (h : acc.takenCorrect + acc.takenIncorrect + acc.notTakenCorrect + acc.notTakenIncorrect
      < 2 ^ 64) :
    (acc.takenCorrect + acc.takenIncorrect + acc.notTakenCorrect + acc.notTakenIncorrect ≠ 0 →
      Fini acc = Double.finite
        (100 * ((acc.takenCorrect + acc.notTakenCorrect : Nat) : ℚ) /
          ((acc.takenCorrect + acc.takenIncorrect + acc.notTakenCorrect
            + acc.notTakenIncorrect : Nat) : ℚ))) ∧
    (acc.takenCorrect + acc.takenIncorrect + acc.notTakenCorrect + acc.notTakenIncorrect = 0 →
      Fini acc = Double.nan) := by
  constructor
  · intro hz
    rw [Fini_of_lt acc h, if_neg hz]
  · intro hz
    rw [Fini_of_lt acc h, if_pos hz]

/-- Instance of C12: 60 correct predictions of 100 give the precision 60. -/
theorem C12_precision_witness :
    35 + 40 + 25 + 0 < 2 ^ 64 ∧ 35 + 40 + 25 + 0 ≠ 0 ∧ 35 + 25 = 60 ∧
    Fini (Accumulator.mk 35 40 25 0) = Double.finite 60 :=
  ⟨by decide, by decide, by decide, by
    rw [(C12_precision (Accumulator.mk 35 40 25 0) (by decide)).1 (by decide)]
    norm_num⟩

/-! ## Construction -/

end BrchPredict
